import Mathlib

/-!
The tag tokenizer and the tag dictionary of hoordu (psql-text-search/hoordu.c).

A shallow embedding of the two algorithms of `hoordu.c`:

* the tag parser (`hoordu_tagparser_start`, `hoordu_tagparser_nexttoken`),
  a scan over a byte buffer addressed by pointers;
* the tag dictionary (`hoordu_tagdict_lexize`), lowercasing plus the optional
  split at the first colon.

Pointers are integers (addresses).  The memory the parser reads is a function
`mem` from addresses to byte values, and the host's character-length service
`pg_mblen` is a function `mblen` from addresses to lengths: for a fixed,
immutable memory the value of `pg_mblen(p)` depends on the address `p` only.
-/

namespace Hoordu

/-! ## Tag parser -/

/-- The C struct `TagParserStatus`: three pointers into the buffer.  The field
`end_` is the C field `end`. -/
structure TagParserStatus where
  begin : Int
  end_ : Int
  p : Int
  deriving DecidableEq, Repr

/-- Token category `TAG_TOKEN`. -/
def TAG_TOKEN : Int := 1

/-- Token category `FULLTAG_TOKEN`. -/
def FULLTAG_TOKEN : Int := 2

/-- The byte value of the C character `' '`. -/
def SPACE : Nat := 32

/-- The byte value of the C character `':'`. -/
def COLON : Nat := 58

/-- The function `hoordu_tagparser_start`: `begin` is the buffer pointer,
`len` the `int32` length argument. -/
def hoordu_tagparser_start (begin : Int) (len : Int) : TagParserStatus :=
  { begin := begin, end_ := begin + len, p := begin }

/-- The variables the `while` loop of `hoordu_tagparser_nexttoken` works on:
the status (only `p` changes), the out-parameter `*t`, and the three local
flags `found`, `end` (here `end_`) and `has_category`. -/
structure ScanVars where
  status : TagParserStatus
  t : Int
  found : Bool
  end_ : Bool
  has_category : Bool
  deriving DecidableEq, Repr

/-- The loop condition `status->p < status->end && !end`. -/
def loopCond (v : ScanVars) : Bool :=
  decide (v.status.p < v.status.end_) && !v.end_

/-- One pass through the body of the `while` loop. -/
def loopBody (mem : Int → Nat) (mblen : Int → Nat) (v : ScanVars) : ScanVars :=
  let p_len := mblen v.status.p
  let v1 : ScanVars :=
    if p_len = 1 then
      if mem v.status.p = SPACE then
        -- end of the token
        if v.found then { v with end_ := true } else v
      else if mem v.status.p = COLON then
        { v with has_category := true }
      else
        -- valid token character
        if !v.found then { v with t := v.status.p, found := true } else v
    else
      if !v.found then { v with t := v.status.p, found := true } else v
  { v1 with status := { v1.status with p := v1.status.p + p_len } }

/-- The `while` loop, with a bound on the number of passes: `none` when the
bound is used up while the loop condition still holds. -/
def whileLoop (mem : Int → Nat) (mblen : Int → Nat) : Nat → ScanVars → Option ScanVars
  | 0, v => if loopCond v then none else some v
  | n + 1, v => if loopCond v then whileLoop mem mblen n (loopBody mem mblen v) else some v

/-- What one call of `hoordu_tagparser_nexttoken` leaves behind: the return
code, the status, and the contents of the out-parameters `*t` and `*tlen`. -/
structure NextToken where
  code : Int
  status : TagParserStatus
  t : Int
  tlen : Int
  deriving DecidableEq, Repr

/-- The function `hoordu_tagparser_nexttoken`.  The arguments `t0` and `tlen0`
are what the out-parameters `*t` and `*tlen` hold at entry (the function leaves
them alone when it returns 0).  The loop is run with `end - p` passes allowed,
which is enough whenever every character met has a length of at least 1 (see
`whileLoop_fuel`); the result is `none` exactly when the C loop does not
terminate, which happens when `pg_mblen` gives 0 at a position the scan
reaches. -/
def hoordu_tagparser_nexttoken (mem : Int → Nat) (mblen : Int → Nat)
    (status : TagParserStatus) (t0 tlen0 : Int) : Option NextToken :=
  (whileLoop mem mblen (status.end_ - status.p).toNat
      { status := status, t := t0, found := false, end_ := false,
        has_category := false }).map fun v =>
    if v.found then
      { code := if !v.has_category then TAG_TOKEN else FULLTAG_TOKEN,
        status := v.status, t := v.t, tlen := v.status.p - v.t }
    else
      { code := 0, status := v.status, t := v.t, tlen := tlen0 }

/-- The memory that holds the bytes `buf` from address `base` on (0 elsewhere). -/
def bufferAt (base : Int) (buf : List Nat) : Int → Nat :=
  fun a => if a < base then 0 else buf.getD (a - base).toNat 0

/-- The bytes of the span `(t, tlen)`. -/
def spanText (mem : Int → Nat) (t tlen : Int) : List Nat :=
  (List.range tlen.toNat).map fun i => mem (t + i)

/-- The host's pull loop: call `hoordu_tagparser_nexttoken` until it returns 0,
at most `n` times, collecting the category code and the span text of each
token.  The result is `none` when a call does not return or when `n` calls did
not reach the end of the stream. -/
def scanTokens (mem : Int → Nat) (mblen : Int → Nat) :
    Nat → TagParserStatus → Int → Int → Option (List (Int × List Nat))
  | 0, _, _, _ => none
  | n + 1, st, t0, tlen0 =>
    match hoordu_tagparser_nexttoken mem mblen st t0 tlen0 with
    | none => none
    | some r =>
      if r.code = 0 then some []
      else (scanTokens mem mblen n r.status r.t r.tlen).map
        fun rest => (r.code, spanText mem r.t r.tlen) :: rest

/-- Single-byte encoding: every character is one byte long. -/
def singleByte : Int → Nat := fun _ => 1

/-! ## Characters of a buffer -/

/-- The character at `q` is a delimiter of the scan: a single-byte space or a
single-byte colon. -/
def isDelim (mem : Int → Nat) (mblen : Int → Nat) (q : Int) : Prop :=
  mblen q = 1 ∧ (mem q = SPACE ∨ mem q = COLON)

instance (mem : Int → Nat) (mblen : Int → Nat) (q : Int) :
    Decidable (isDelim mem mblen q) := by
  unfold isDelim; infer_instance

/-- The character at `q` is a single-byte colon. -/
def isColon (mem : Int → Nat) (mblen : Int → Nat) (q : Int) : Prop :=
  mblen q = 1 ∧ mem q = COLON

instance (mem : Int → Nat) (mblen : Int → Nat) (q : Int) :
    Decidable (isColon mem mblen q) := by
  unfold isColon; infer_instance

/-- The character at `q` is a single-byte space. -/
def isSpace (mem : Int → Nat) (mblen : Int → Nat) (q : Int) : Prop :=
  mblen q = 1 ∧ mem q = SPACE

instance (mem : Int → Nat) (mblen : Int → Nat) (q : Int) :
    Decidable (isSpace mem mblen q) := by
  unfold isSpace; infer_instance

/-- The address `q` is where a character starts when the characters are read
one after the other from address `a` on. -/
inductive CharStart (mblen : Int → Nat) : Int → Int → Prop
  | here (a : Int) : CharStart mblen a a
  | next (a q : Int) : CharStart mblen (a + mblen a) q → CharStart mblen a q

/-- The bytes from `a` up to `e` are made of whole characters, each at least
one byte long and each with the property `P`, the last of which ends at `e`. -/
inductive CharRun (mblen : Int → Nat) (P : Int → Prop) : Int → Int → Prop
  | nil (a : Int) : CharRun mblen P a a
  | cons (a e : Int) : P a → 1 ≤ mblen a → CharRun mblen P (a + mblen a) e →
      CharRun mblen P a e

/-- The buffer from `a` up to `e` is well formed: it is made of whole
characters, none of which runs past `e`. -/
def WellFormed (mblen : Int → Nat) (a e : Int) : Prop :=
  CharRun mblen (fun _ => True) a e

/-! ## Tag dictionary -/

/-- The C struct `TagDict`. -/
structure TagDict where
  split_tags : Int
  deriving DecidableEq, Repr

/-- The host struct `TSLexeme`, with the two fields the dictionary writes:
`nvariant` and the C string `lexeme` (`none` is the NULL pointer, which is what
`palloc0` leaves and what ends the result array). -/
structure TSLexeme where
  nvariant : Nat
  lexeme : Option (List Nat)
  deriving DecidableEq, Repr

/-- The host service `pg_mbstrlen` on a C string (the bytes before the
terminating NUL): the number of characters, found by stepping `pg_mblen` until
the NUL is reached.  The number of steps is bounded; `none` when the bound is
used up, which with the bound `length` happens exactly when a character of
length 0 is met (the C loop does not terminate then).  A character whose
length runs past the terminating NUL is taken to end the string. -/
def pg_mbstrlen (mblen : List Nat → Nat) : Nat → List Nat → Option Nat
  | _, [] => some 0
  | 0, _ :: _ => none
  | n + 1, c :: s =>
    (pg_mbstrlen mblen n ((c :: s).drop (mblen (c :: s)))).map fun len => len + 1

/-- The `for` loop of `hoordu_tagdict_lexize`, by the number `strlen - i` of
passes still allowed: the result is `found_colon` and the pointer `txt` (the
rest of the C string) at the exit of the loop. -/
def splitLoop (mblen : List Nat → Nat) : Nat → List Nat → Bool × List Nat
  | 0, txt => (false, txt)
  | n + 1, txt =>
    let p_len := mblen txt
    let found_colon := decide (p_len = 1 ∧ txt.headD 0 = COLON)
    let txt1 := txt.drop p_len
    if found_colon then (true, txt1) else splitLoop mblen n txt1

/-- The function `hoordu_tagdict_lexize`: the result is the array `res` of four
`TSLexeme`.  The host services `lowerstr_with_len` and `pg_mblen` are the
parameters `lowerstr` (from the `len` bytes of `in` to the lowercased C string)
and `mblen` (from the bytes at a pointer to the length of the first
character).  The result is `none` when `pg_mbstrlen` does not return. -/
def hoordu_tagdict_lexize (lowerstr : List Nat → List Nat) (mblen : List Nat → Nat)
    (d : TagDict) (inp : List Nat) : Option (List TSLexeme) :=
  let res : List TSLexeme := List.replicate 4 { nvariant := 0, lexeme := none }
  let txt := lowerstr inp
  match pg_mbstrlen mblen txt.length txt with
  | none => none
  | some strlen =>
    let res := res.set 0 { nvariant := 1, lexeme := some txt }
    if d.split_tags = 1 then
      match splitLoop mblen strlen txt with
      | (true, txt1) => some (res.set 1 { nvariant := 2, lexeme := some txt1 })
      | (false, _) => some res
    else
      some res

/-- The lexemes the host reads from a result array: the entries before the
first one whose `lexeme` is NULL, each as (variant number, text). -/
def lexemesOf : List TSLexeme → List (Nat × List Nat)
  | [] => []
  | { nvariant := n, lexeme := some s } :: rest => (n, s) :: lexemesOf rest
  | { nvariant := _, lexeme := none } :: _ => []

/-- Lowercasing of a single-byte text in the C locale: the bytes of the
letters `A` to `Z` are moved to `a` to `z`, the others are kept. -/
def asciiLower (s : List Nat) : List Nat :=
  s.map fun b => if 65 ≤ b ∧ b ≤ 90 then b + 32 else b

/-- Every character of a C string is one byte long. -/
def oneByte : List Nat → Nat := fun _ => 1

/-- The bytes `pre`, followed in the string by `suf`, are made of whole
characters (read with `mblen` from the string `pre ++ suf` on), each of which
has the property `P` of its bytes. -/
inductive CharPrefix (mblen : List Nat → Nat) (P : List Nat → Prop) :
    List Nat → List Nat → Prop
  | nil (suf : List Nat) : CharPrefix mblen P [] suf
  | cons (c pre suf : List Nat) : c ≠ [] → mblen (c ++ (pre ++ suf)) = c.length → P c →
      CharPrefix mblen P pre suf → CharPrefix mblen P (c ++ pre) suf

/-- The C string `s` contains a single-byte colon character. -/
def HasColon (mblen : List Nat → Nat) (s : List Nat) : Prop :=
  ∃ pre rest, s = pre ++ COLON :: rest ∧
    CharPrefix mblen (fun _ => True) pre (COLON :: rest) ∧ mblen (COLON :: rest) = 1

/-! ## Token types of the parser -/

/-- The C constant `LAST_TOKEN_NUM`. -/
def LAST_TOKEN_NUM : Nat := 2

/-- The C table `tok_alias`. -/
def tok_alias : List String := ["", "tag", "fulltag"]

/-- The C table `lex_descr`. -/
def lex_descr : List String := ["", "A tag", "A tag with category"]

/-- The host struct `LexDescr`; the field `alias_` is the C field `alias`.
The strings are `none` where the C code has not written the field (the array
comes from `palloc`, which does not clear it). -/
structure LexDescr where
  lexid : Int
  alias_ : Option String
  descr : Option String
  deriving DecidableEq, Repr

/-- The function `hoordu_tagparser_lextype`: the array `descr` of
`LAST_TOKEN_NUM + 1` entries after the `for` loop over `i = 1 .. LAST_TOKEN_NUM`
and the write of the end marker.  The parameter `junk` is what `palloc` left in
an entry. -/
def hoordu_tagparser_lextype (junk : LexDescr) : List LexDescr :=
  let descr : List LexDescr := List.replicate (LAST_TOKEN_NUM + 1) junk
  let descr := (List.range' 1 LAST_TOKEN_NUM).foldl
    (fun descr i => descr.set (i - 1)
      { lexid := i, alias_ := some (tok_alias.getD i ""),
        descr := some (lex_descr.getD i "") })
    descr
  descr.modify (fun e => { e with lexid := 0 }) LAST_TOKEN_NUM

/-- The token types the host reads from a `LexDescr` array: the entries before
the first one whose `lexid` is 0. -/
def lexTypesOf : List LexDescr → List LexDescr
  | [] => []
  | e :: rest => if e.lexid = 0 then [] else e :: lexTypesOf rest

/-! ## Options of the dictionary -/

/-- The host struct `DefElem`, with the option name `defname` and the string
`defGetString` gives for its value. -/
structure DefElem where
  defname : String
  arg : String
  deriving DecidableEq, Repr

/-- The two errors `hoordu_tagdict_init` raises with `ereport(ERROR, ...)`,
both with the code `ERRCODE_INVALID_PARAMETER_VALUE`: `DuplicateOption` is the
one with the message `multiple split_tags parameters`, `UnrecognizedOption` the
one with the message `unrecognized dictionary parameter:` and the name. -/
inductive ConfigError where
  | DuplicateOption : ConfigError
  | UnrecognizedOption (defname : String) : ConfigError
  deriving DecidableEq, Repr

/-- The variables of the `foreach` loop of `hoordu_tagdict_init`: the
dictionary `d` and the flag `split_tags_loaded`. -/
structure InitVars where
  d : TagDict
  split_tags_loaded : Bool
  deriving DecidableEq, Repr

/-- The `foreach` loop of `hoordu_tagdict_init` over the option list.  An
`ereport(ERROR, ...)` leaves the function at once. -/
def initLoop (strcasecmp : String → String → Int) (atoi : String → Int) :
    List DefElem → InitVars → Except ConfigError InitVars
  | [], v => Except.ok v
  | defel :: rest, v =>
    if strcasecmp "split_tags" defel.defname = 0 then
      if v.split_tags_loaded then
        Except.error ConfigError.DuplicateOption
      else
        initLoop strcasecmp atoi rest
          { d := { v.d with split_tags := atoi defel.arg }, split_tags_loaded := true }
    else
      Except.error (ConfigError.UnrecognizedOption defel.defname)

/-- The function `hoordu_tagdict_init`.  The host service `pg_strcasecmp` and
the C library function `atoi` are the parameters `strcasecmp` and `atoi`. -/
def hoordu_tagdict_init (strcasecmp : String → String → Int) (atoi : String → Int)
    (dictoptions : List DefElem) : Except ConfigError TagDict :=
  match initLoop strcasecmp atoi dictoptions
      { d := { split_tags := 0 }, split_tags_loaded := false } with
  | Except.error e => Except.error e
  | Except.ok v =>
    if !v.split_tags_loaded then Except.ok { v.d with split_tags := 0 }
    else Except.ok v.d

/-- The letter case folding of `pg_strcasecmp` on a character: the letters `A`
to `Z` are moved to `a` to `z`. -/
def foldCase (c : Char) : Int :=
  if 65 ≤ c.toNat ∧ c.toNat ≤ 90 then c.toNat + 32 else c.toNat

/-- The comparison of `pg_strcasecmp` on two C strings of ASCII characters:
the difference of the first two characters that differ after case folding (the
end of a string counts as the character 0), and 0 when there is none. -/
def casecmpChars : List Char → List Char → Int
  | [], [] => 0
  | [], c2 :: _ => 0 - foldCase c2
  | c1 :: _, [] => foldCase c1
  | c1 :: s1, c2 :: s2 =>
    if foldCase c1 = foldCase c2 then casecmpChars s1 s2 else foldCase c1 - foldCase c2

/-- The host service `pg_strcasecmp` on ASCII strings. -/
def asciiCasecmp (s1 s2 : String) : Int :=
  casecmpChars s1.data s2.data

/-- The value of the decimal digits at the start of `s`, after `acc`. -/
def digitsValue : List Char → Int → Int
  | [], acc => acc
  | c :: s, acc =>
    if 48 ≤ c.toNat ∧ c.toNat ≤ 57 then digitsValue s (acc * 10 + (c.toNat - 48))
    else acc

/-- The white space `atoi` skips: space and the characters 9 to 13. -/
def isCSpace (c : Char) : Bool :=
  c.toNat = 32 || (9 ≤ c.toNat && c.toNat ≤ 13)

/-- The text of a string after the white space and the optional sign `atoi`
skips, with the sign read (`true` for `-`). -/
def digitsPart (s : String) : Bool × List Char :=
  match s.data.dropWhile isCSpace with
  | '-' :: r => (true, r)
  | '+' :: r => (false, r)
  | r => (false, r)

/-- The lenient integer reading of a string, in the words of the
specification: the leading decimal integer (after white space and an optional
sign), and 0 when the text is non-numeric.  It is an integer without bound. -/
def lenientInteger (s : String) : Int :=
  if (digitsPart s).1 then - digitsValue (digitsPart s).2 0
  else digitsValue (digitsPart s).2 0

/-- The result of the C library function `strtol` for a decimal reading `x`:
`x` kept in the range of a 64-bit `long`, from -2^63 to 2^63 - 1. -/
def clampLong (x : Int) : Int :=
  if x < -9223372036854775808 then -9223372036854775808
  else if 9223372036854775807 < x then 9223372036854775807
  else x

/-- The conversion of a `long` to the 32-bit `int`: `x` modulo 2^32, in the
range from -2^31 to 2^31 - 1. -/
def toInt32 (x : Int) : Int :=
  (x + 2147483648) % 4294967296 - 2147483648

/-- The C library function `atoi`, which is `(int) strtol(s, NULL, 10)`: the
lenient integer reading, kept in the range of `long` and then converted to the
`int` that `split_tags` is. -/
def asciiAtoi (s : String) : Int :=
  toInt32 (clampLong (lenientInteger s))

/-! ## The loop of the tag parser -/

theorem loopBody_status (mem : Int → Nat) (mblen : Int → Nat) (v : ScanVars) :
    (loopBody mem mblen v).status =
      { v.status with p := v.status.p + mblen v.status.p } := by
  unfold loopBody
  simp only []
  split_ifs <;> rfl

theorem loopBody_p (mem : Int → Nat) (mblen : Int → Nat) (v : ScanVars) :
    (loopBody mem mblen v).status.p = v.status.p + mblen v.status.p := by
  rw [loopBody_status]

theorem loopBody_begin (mem : Int → Nat) (mblen : Int → Nat) (v : ScanVars) :
    (loopBody mem mblen v).status.begin = v.status.begin := by
  rw [loopBody_status]

theorem loopBody_end (mem : Int → Nat) (mblen : Int → Nat) (v : ScanVars) :
    (loopBody mem mblen v).status.end_ = v.status.end_ := by
  rw [loopBody_status]

theorem whileLoop_done (mem : Int → Nat) (mblen : Int → Nat) (n : Nat) (v : ScanVars)
    (h : loopCond v = false) : whileLoop mem mblen n v = some v := by
  cases n <;> simp [whileLoop, h]

theorem whileLoop_step (mem : Int → Nat) (mblen : Int → Nat) (n : Nat) (v : ScanVars)
    (h : loopCond v = true) :
    whileLoop mem mblen (n + 1) v = whileLoop mem mblen n (loopBody mem mblen v) := by
  simp [whileLoop, h]

theorem loopCond_iff (v : ScanVars) :
    loopCond v = true ↔ v.status.p < v.status.end_ ∧ v.end_ = false := by
  simp [loopCond]

/-- A character of length 0 keeps the loop where it is: the condition still
holds after the body. -/
theorem loopBody_stuck (mem : Int → Nat) (mblen : Int → Nat) (v : ScanVars)
    (h0 : mblen v.status.p = 0) (hc : loopCond v = true) :
    loopCond (loopBody mem mblen v) = true ∧
      (loopBody mem mblen v).status.p = v.status.p := by
  rw [loopCond_iff] at hc
  refine ⟨?_, by rw [loopBody_p, h0]; simp⟩
  rw [loopCond_iff, loopBody_p, loopBody_end, h0]
  refine ⟨by simpa using hc.1, ?_⟩
  unfold loopBody
  simp only [h0]
  split_ifs <;> simp_all

/-- The loop does not terminate from a position whose character has length 0. -/
theorem whileLoop_stuck (mem : Int → Nat) (mblen : Int → Nat) (n : Nat) :
    ∀ v : ScanVars, mblen v.status.p = 0 → loopCond v = true →
      whileLoop mem mblen n v = none := by
  induction n with
  | zero => intro v _ hc; simp [whileLoop, hc]
  | succ n ih =>
    intro v h0 hc
    rw [whileLoop_step _ _ _ _ hc]
    obtain ⟨hc1, hp⟩ := loopBody_stuck mem mblen v h0 hc
    exact ih _ (by rw [hp]; exact h0) hc1

/-- The number of passes allowed does not matter once the loop terminates, and
`end - p` passes are always enough for a loop that terminates at all. -/
theorem whileLoop_fuel (mem : Int → Nat) (mblen : Int → Nat) (n : Nat) :
    ∀ (v r : ScanVars) (m : Nat), whileLoop mem mblen n v = some r →
      (v.status.end_ - v.status.p).toNat ≤ m → whileLoop mem mblen m v = some r := by
  induction n with
  | zero =>
    intro v r m h _
    by_cases hc : loopCond v = true
    · simp [whileLoop, hc] at h
    · have hc1 : loopCond v = false := by simpa using hc
      rw [whileLoop_done _ _ _ _ hc1] at h ⊢
      exact h
  | succ n ih =>
    intro v r m h hm
    by_cases hc : loopCond v = true
    · rw [whileLoop_step _ _ _ _ hc] at h
      have hpos : 1 ≤ mblen v.status.p := by
        by_contra hlt
        have h0 : mblen v.status.p = 0 := by omega
        obtain ⟨hc1, hp⟩ := loopBody_stuck mem mblen v h0 hc
        rw [whileLoop_stuck mem mblen n _ (by rw [hp]; exact h0) hc1] at h
        exact Option.noConfusion h
      have hlt := (loopCond_iff v).1 hc
      obtain ⟨k, rfl⟩ : ∃ k, m = k + 1 := ⟨m - 1, by omega⟩
      rw [whileLoop_step _ _ _ _ hc]
      apply ih _ _ _ h
      rw [loopBody_p, loopBody_end]
      omega
    · have hc1 : loopCond v = false := by simpa using hc
      rw [whileLoop_done _ _ _ _ hc1] at h ⊢
      exact h

/-- With `end - p` passes allowed, the loop runs out of passes only when it
reaches a character of length 0 before `end`. -/
theorem whileLoop_none (mem : Int → Nat) (mblen : Int → Nat) (n : Nat) :
    ∀ v : ScanVars, (v.status.end_ - v.status.p).toNat ≤ n →
      whileLoop mem mblen n v = none →
      ∃ q, CharStart mblen v.status.p q ∧ q < v.status.end_ ∧ mblen q = 0 := by
  induction n with
  | zero =>
    intro v hn h
    have hc : loopCond v = false := by
      have : ¬ loopCond v = true := by rw [loopCond_iff]; omega
      simpa using this
    rw [whileLoop_done _ _ _ _ hc] at h
    exact Option.noConfusion h
  | succ n ih =>
    intro v hn h
    by_cases hc : loopCond v = true
    · have hlt := ((loopCond_iff v).1 hc).1
      by_cases h0 : mblen v.status.p = 0
      · exact ⟨_, CharStart.here _, hlt, h0⟩
      · rw [whileLoop_step _ _ _ _ hc] at h
        obtain ⟨q, hq, hq1, hq2⟩ := ih (loopBody mem mblen v)
          (by rw [loopBody_p, loopBody_end]; omega) h
        rw [loopBody_p] at hq
        rw [loopBody_end] at hq1
        exact ⟨q, CharStart.next _ _ hq, hq1, hq2⟩
    · have hc1 : loopCond v = false := by simpa using hc
      rw [whileLoop_done _ _ _ _ hc1] at h
      exact Option.noConfusion h

theorem loopBody_found_iff (mem : Int → Nat) (mblen : Int → Nat) (v : ScanVars) :
    (loopBody mem mblen v).found = true ↔
      v.found = true ∨ ¬ isDelim mem mblen v.status.p := by
  unfold loopBody isDelim
  simp only []
  split_ifs <;> simp_all

theorem loopBody_end_iff (mem : Int → Nat) (mblen : Int → Nat) (v : ScanVars) :
    (loopBody mem mblen v).end_ = true ↔
      v.end_ = true ∨ (v.found = true ∧ isSpace mem mblen v.status.p) := by
  unfold loopBody isSpace
  simp only []
  split_ifs <;> simp_all

theorem loopBody_has_category_iff (mem : Int → Nat) (mblen : Int → Nat) (v : ScanVars) :
    (loopBody mem mblen v).has_category = true ↔
      v.has_category = true ∨ isColon mem mblen v.status.p := by
  unfold loopBody isColon
  simp only []
  split_ifs <;> simp_all [SPACE, COLON]

theorem loopBody_t (mem : Int → Nat) (mblen : Int → Nat) (v : ScanVars) :
    (loopBody mem mblen v).t =
      if v.found = false ∧ ¬ isDelim mem mblen v.status.p then v.status.p else v.t := by
  unfold loopBody isDelim
  simp only []
  split_ifs <;> simp_all

/-! ## Facts about the loop that hold for every run that terminates -/

theorem CharStart_le (mblen : Int → Nat) (a q : Int) (h : CharStart mblen a q) : a ≤ q := by
  induction h with
  | here a => exact le_refl a
  | next a q _ ih => omega

theorem CharRun_le (mblen : Int → Nat) (P : Int → Prop) (a e : Int)
    (h : CharRun mblen P a e) : a ≤ e := by
  induction h with
  | nil a => exact le_refl a
  | cons a e _ _ _ ih => omega

theorem CharRun_mono (mblen : Int → Nat) (P Q : Int → Prop) (a e : Int)
    (hPQ : ∀ q, P q → Q q) (h : CharRun mblen P a e) : CharRun mblen Q a e := by
  induction h with
  | nil a => exact CharRun.nil a
  | cons a e hP hlen _ ih => exact CharRun.cons a e (hPQ a hP) hlen ih

theorem CharRun_head (mblen : Int → Nat) (P : Int → Prop) (a e : Int)
    (h : CharRun mblen P a e) (hlt : a < e) :
    P a ∧ 1 ≤ mblen a ∧ CharRun mblen P (a + mblen a) e := by
  cases h with
  | nil => omega
  | cons _ _ hP hlen hrest => exact ⟨hP, hlen, hrest⟩

/-- A run that terminates met a character of length at least 1 at its first
position. -/
theorem whileLoop_first_len (mem : Int → Nat) (mblen : Int → Nat) (n : Nat)
    (v r : ScanVars) (h : whileLoop mem mblen n v = some r) (hc : loopCond v = true) :
    1 ≤ mblen v.status.p := by
  by_contra hlt
  have h0 : mblen v.status.p = 0 := by omega
  rw [whileLoop_stuck mem mblen n v h0 hc] at h
  exact Option.noConfusion h

/-- The loop keeps `begin` and `end` and never moves the cursor back. -/
theorem whileLoop_frame (mem : Int → Nat) (mblen : Int → Nat) (n : Nat) :
    ∀ v r : ScanVars, whileLoop mem mblen n v = some r →
      r.status.begin = v.status.begin ∧ r.status.end_ = v.status.end_ ∧
        v.status.p ≤ r.status.p := by
  induction n with
  | zero =>
    intro v r h
    by_cases hc : loopCond v = true
    · simp [whileLoop, hc] at h
    · have hc1 : loopCond v = false := by simpa using hc
      rw [whileLoop_done _ _ _ _ hc1] at h
      cases h
      exact ⟨rfl, rfl, le_refl _⟩
  | succ n ih =>
    intro v r h
    by_cases hc : loopCond v = true
    · rw [whileLoop_step _ _ _ _ hc] at h
      obtain ⟨h1, h2, h3⟩ := ih _ _ h
      rw [loopBody_begin] at h1
      rw [loopBody_end] at h2
      rw [loopBody_p] at h3
      exact ⟨h1, h2, by omega⟩
    · have hc1 : loopCond v = false := by simpa using hc
      rw [whileLoop_done _ _ _ _ hc1] at h
      cases h
      exact ⟨rfl, rfl, le_refl _⟩

/-- Once the start of a token is found, it stays found and `*t` is not
written again. -/
theorem whileLoop_found_keep (mem : Int → Nat) (mblen : Int → Nat) (n : Nat) :
    ∀ v r : ScanVars, whileLoop mem mblen n v = some r → v.found = true →
      r.found = true ∧ r.t = v.t := by
  induction n with
  | zero =>
    intro v r h hf
    by_cases hc : loopCond v = true
    · simp [whileLoop, hc] at h
    · have hc1 : loopCond v = false := by simpa using hc
      rw [whileLoop_done _ _ _ _ hc1] at h
      cases h
      exact ⟨hf, rfl⟩
  | succ n ih =>
    intro v r h hf
    by_cases hc : loopCond v = true
    · rw [whileLoop_step _ _ _ _ hc] at h
      obtain ⟨h1, h2⟩ := ih _ _ h ((loopBody_found_iff mem mblen v).2 (Or.inl hf))
      refine ⟨h1, ?_⟩
      rw [h2, loopBody_t]
      simp [hf]
    · have hc1 : loopCond v = false := by simpa using hc
      rw [whileLoop_done _ _ _ _ hc1] at h
      cases h
      exact ⟨hf, rfl⟩

/-- The start of a token found by the loop lies at or after the cursor at
entry and strictly before the cursor at exit. -/
theorem whileLoop_t_bounds (mem : Int → Nat) (mblen : Int → Nat) (n : Nat) :
    ∀ v r : ScanVars, whileLoop mem mblen n v = some r → v.found = false →
      r.found = true → v.status.p ≤ r.t ∧ r.t < r.status.p := by
  induction n with
  | zero =>
    intro v r h hf hr
    by_cases hc : loopCond v = true
    · simp [whileLoop, hc] at h
    · have hc1 : loopCond v = false := by simpa using hc
      rw [whileLoop_done _ _ _ _ hc1] at h
      cases h
      rw [hf] at hr
      exact Bool.noConfusion hr
  | succ n ih =>
    intro v r h hf hr
    by_cases hc : loopCond v = true
    · have hlen := whileLoop_first_len mem mblen _ v r h hc
      rw [whileLoop_step _ _ _ _ hc] at h
      have hfr := whileLoop_frame mem mblen n _ _ h
      rw [loopBody_p] at hfr
      by_cases hf1 : (loopBody mem mblen v).found = true
      · obtain ⟨_, ht⟩ := whileLoop_found_keep mem mblen n _ _ h hf1
        have hnd : ¬ isDelim mem mblen v.status.p := by
          rcases (loopBody_found_iff mem mblen v).1 hf1 with h1 | h1
          · rw [hf] at h1; exact Bool.noConfusion h1
          · exact h1
        rw [loopBody_t] at ht
        simp only [hf, hnd, not_false_eq_true, and_self, if_true] at ht
        omega
      · have hf2 : (loopBody mem mblen v).found = false := by simpa using hf1
        obtain ⟨h1, h2⟩ := ih _ _ h hf2 hr
        rw [loopBody_p] at h1
        exact ⟨by omega, h2⟩
    · have hc1 : loopCond v = false := by simpa using hc
      rw [whileLoop_done _ _ _ _ hc1] at h
      cases h
      rw [hf] at hr
      exact Bool.noConfusion hr

/-- On a well-formed buffer the cursor stops at or before `end`, at the start
of a character. -/
theorem whileLoop_wellFormed (mem : Int → Nat) (mblen : Int → Nat) (n : Nat) :
    ∀ v r : ScanVars, whileLoop mem mblen n v = some r →
      WellFormed mblen v.status.p v.status.end_ →
      r.status.p ≤ v.status.end_ ∧ WellFormed mblen r.status.p v.status.end_ := by
  induction n with
  | zero =>
    intro v r h hw
    by_cases hc : loopCond v = true
    · simp [whileLoop, hc] at h
    · have hc1 : loopCond v = false := by simpa using hc
      rw [whileLoop_done _ _ _ _ hc1] at h
      cases h
      exact ⟨CharRun_le _ _ _ _ hw, hw⟩
  | succ n ih =>
    intro v r h hw
    by_cases hc : loopCond v = true
    · rw [whileLoop_step _ _ _ _ hc] at h
      have hlt := ((loopCond_iff v).1 hc).1
      have hw1 : WellFormed mblen (loopBody mem mblen v).status.p
          (loopBody mem mblen v).status.end_ := by
        rw [loopBody_p, loopBody_end]
        exact (CharRun_head _ _ _ _ hw hlt).2.2
      have := ih _ _ h hw1
      rw [loopBody_end] at this
      exact this
    · have hc1 : loopCond v = false := by simpa using hc
      rw [whileLoop_done _ _ _ _ hc1] at h
      cases h
      exact ⟨CharRun_le _ _ _ _ hw, hw⟩

/-- On a buffer made of whole characters the loop terminates. -/
theorem whileLoop_terminates (mem : Int → Nat) (mblen : Int → Nat) (P : Int → Prop)
    (a e : Int) (hrun : CharRun mblen P a e) :
    ∀ v : ScanVars, v.status.p = a → v.status.end_ = e →
      ∃ r, whileLoop mem mblen (v.status.end_ - v.status.p).toNat v = some r := by
  induction hrun with
  | nil a =>
    intro v hp he
    refine ⟨v, whileLoop_done _ _ _ _ ?_⟩
    have : ¬ loopCond v = true := by rw [loopCond_iff]; omega
    simpa using this
  | cons a e _ hlen _ ih =>
    intro v hp he
    by_cases hc : loopCond v = true
    · obtain ⟨r, hr⟩ := ih (loopBody mem mblen v) (by rw [loopBody_p, hp])
        (by rw [loopBody_end, he])
      refine ⟨r, whileLoop_fuel mem mblen
        (((loopBody mem mblen v).status.end_ - (loopBody mem mblen v).status.p).toNat + 1)
        v r _ ?_ (le_refl _)⟩
      rw [whileLoop_step _ _ _ _ hc]
      exact hr
    · have hc1 : loopCond v = false := by simpa using hc
      exact ⟨v, whileLoop_done _ _ _ _ hc1⟩

/-! ## One call of `hoordu_tagparser_nexttoken` -/

/-- The variables of the loop at the entry of `hoordu_tagparser_nexttoken`
and at its exit, for a call that returns. -/
theorem nexttoken_some (mem : Int → Nat) (mblen : Int → Nat) (st : TagParserStatus)
    (t0 tlen0 : Int) (r : NextToken)
    (h : hoordu_tagparser_nexttoken mem mblen st t0 tlen0 = some r) :
    ∃ v, whileLoop mem mblen (st.end_ - st.p).toNat
        { status := st, t := t0, found := false, end_ := false, has_category := false }
          = some v ∧
      r.status = v.status ∧ r.t = v.t ∧
      (v.found = true → r.tlen = v.status.p - v.t ∧
        (v.has_category = true → r.code = FULLTAG_TOKEN) ∧
        (v.has_category = false → r.code = TAG_TOKEN)) ∧
      (v.found = false → r.code = 0 ∧ r.tlen = tlen0) := by
  unfold hoordu_tagparser_nexttoken at h
  rw [Option.map_eq_some'] at h
  obtain ⟨v, hv, hr⟩ := h
  refine ⟨v, hv, ?_⟩
  subst hr
  by_cases hf : v.found = true
  · by_cases hcat : v.has_category = true <;> simp [hf, hcat]
  · simp [hf]

/-- A call of `hoordu_tagparser_nexttoken` returns as soon as its loop
terminates. -/
theorem nexttoken_of_loop (mem : Int → Nat) (mblen : Int → Nat) (st : TagParserStatus)
    (t0 tlen0 : Int) (n : Nat) (v : ScanVars)
    (h : whileLoop mem mblen n
        { status := st, t := t0, found := false, end_ := false, has_category := false }
          = some v) :
    ∃ r, hoordu_tagparser_nexttoken mem mblen st t0 tlen0 = some r ∧
      r.status = v.status ∧ r.t = v.t ∧
      (v.found = true → r.tlen = v.status.p - v.t ∧
        (v.has_category = true → r.code = FULLTAG_TOKEN) ∧
        (v.has_category = false → r.code = TAG_TOKEN)) ∧
      (v.found = false → r.code = 0 ∧ r.tlen = tlen0) := by
  have h1 := whileLoop_fuel mem mblen n _ v (st.end_ - st.p).toNat h (le_refl _)
  unfold hoordu_tagparser_nexttoken
  rw [h1]
  refine ⟨_, rfl, ?_⟩
  by_cases hf : v.found = true
  · by_cases hcat : v.has_category = true <;> simp [hf, hcat]
  · simp [hf]

theorem charRun_singleByte (P : Int → Prop) (n : Nat) :
    ∀ a : Int, (∀ i : Nat, i < n → P (a + i)) → CharRun singleByte P a (a + n) := by
  induction n with
  | zero => intro a _; simpa using CharRun.nil a
  | succ n ih =>
    intro a hP
    refine CharRun.cons a _ (by simpa using hP 0 (Nat.succ_pos n)) (le_refl _) ?_
    have hrest := ih (a + 1) (fun i hi => by
      have := hP (i + 1) (by omega)
      have e : a + 1 + (i : Int) = a + ((i + 1 : Nat) : Int) := by push_cast; ring
      rw [e]; exact this)
    have e : a + 1 + (n : Int) = a + ((n + 1 : Nat) : Int) := by push_cast; ring
    rw [e] at hrest
    exact hrest

theorem wellFormed_singleByte (n : Nat) (a : Int) : WellFormed singleByte a (a + n) :=
  charRun_singleByte _ n a (fun _ _ => trivial)

/-- C6 (amended): for a length `len ≥ 0` the state returned by
`hoordu_tagparser_start` has `begin ≤ p ≤ end`; and from every state with
`begin ≤ p` whose remaining buffer `[p, end)` is well formed (made of whole
characters of length at least 1, none running past `end`), a call of
`hoordu_tagparser_nexttoken` returns, leaves `begin` and `end` unchanged, does
not move the cursor back, keeps `begin ≤ p ≤ end`, and leaves a remaining
buffer that is well formed again. -/
theorem tagparser_cursor_invariant (mem : Int → Nat) (mblen : Int → Nat)
    (begin len : Int) (hlen : 0 ≤ len) (st : TagParserStatus) (t0 tlen0 : Int)
    (hst : st.begin ≤ st.p) (hwf : WellFormed mblen st.p st.end_) :
    ((hoordu_tagparser_start begin len).begin ≤ (hoordu_tagparser_start begin len).p ∧
      (hoordu_tagparser_start begin len).p ≤ (hoordu_tagparser_start begin len).end_) ∧
    ∃ r, hoordu_tagparser_nexttoken mem mblen st t0 tlen0 = some r ∧
      r.status.begin = st.begin ∧ r.status.end_ = st.end_ ∧ st.p ≤ r.status.p ∧
      r.status.begin ≤ r.status.p ∧ r.status.p ≤ r.status.end_ ∧
      WellFormed mblen r.status.p r.status.end_ := by
  refine ⟨⟨le_refl _, by simp [hoordu_tagparser_start, hlen]⟩, ?_⟩
  obtain ⟨v, hv⟩ := whileLoop_terminates mem mblen _ _ _ hwf
    { status := st, t := t0, found := false, end_ := false, has_category := false }
    rfl rfl
  obtain ⟨r, hr, hs, _⟩ := nexttoken_of_loop mem mblen st t0 tlen0 _ v hv
  obtain ⟨h1, h2, h3⟩ := whileLoop_frame mem mblen _ _ _ hv
  obtain ⟨h4, h5⟩ := whileLoop_wellFormed mem mblen _ _ _ hv hwf
  simp only [] at h1 h2 h3 h4 h5
  refine ⟨r, hr, ?_⟩
  rw [hs, h1, h2]
  exact ⟨rfl, rfl, h3, by omega, h4, h5⟩

theorem tagparser_cursor_invariant_witness :
    ((hoordu_tagparser_start 0 3).begin ≤ (hoordu_tagparser_start 0 3).p ∧
      (hoordu_tagparser_start 0 3).p ≤ (hoordu_tagparser_start 0 3).end_) ∧
    ∃ r, hoordu_tagparser_nexttoken (bufferAt 0 [97, 32, 98]) singleByte
        (hoordu_tagparser_start 0 3) 0 0 = some r ∧
      r.status.begin = (hoordu_tagparser_start 0 3).begin ∧
      r.status.end_ = (hoordu_tagparser_start 0 3).end_ ∧
      (hoordu_tagparser_start 0 3).p ≤ r.status.p ∧
      r.status.begin ≤ r.status.p ∧ r.status.p ≤ r.status.end_ ∧
      WellFormed singleByte r.status.p r.status.end_ :=
  tagparser_cursor_invariant (bufferAt 0 [97, 32, 98]) singleByte 0 3 (by decide)
    (hoordu_tagparser_start 0 3) 0 0 (le_refl _) (wellFormed_singleByte 3 0)

/-- C6 as stated fails: on the one-byte buffer `[0xC3]` (length 1 ≥ 0) read
with a character length of 2 at its first byte, the call returns with the
cursor at `begin + 2`, past `end = begin + 1`. -/
theorem tagparser_cursor_past_end :
    (0 : Int) ≤ 1 ∧
    ∃ r, hoordu_tagparser_nexttoken (bufferAt 0 [195]) (fun _ => 2)
        (hoordu_tagparser_start 0 1) 0 0 = some r ∧
      r.status.p = 2 ∧ r.status.end_ = 1 ∧ ¬ r.status.p ≤ r.status.end_ :=
  ⟨by decide, _, rfl, rfl, rfl, by decide⟩

/-- C7 (amended): from every state with `begin ≤ p` whose remaining buffer
`[p, end)` is well formed, a call of `hoordu_tagparser_nexttoken` that returns
a token returns a span inside the buffer (`begin ≤ t` and `t + tlen ≤ end`) of
strictly positive length. -/
theorem tagparser_span_inside (mem : Int → Nat) (mblen : Int → Nat)
    (st : TagParserStatus) (t0 tlen0 : Int) (r : NextToken)
    (hst : st.begin ≤ st.p) (hwf : WellFormed mblen st.p st.end_)
    (h : hoordu_tagparser_nexttoken mem mblen st t0 tlen0 = some r)
    (hcode : r.code ≠ 0) :
    st.begin ≤ r.t ∧ r.t + r.tlen ≤ st.end_ ∧ 0 < r.tlen := by
  obtain ⟨v, hv, _, ht, hfound, hnot⟩ := nexttoken_some mem mblen st t0 tlen0 r h
  have hf : v.found = true := by
    by_contra hf
    exact hcode (hnot (by simpa using hf)).1
  obtain ⟨hlen, _⟩ := hfound hf
  obtain ⟨h1, h2⟩ := whileLoop_t_bounds mem mblen _ _ _ hv rfl hf
  obtain ⟨h4, _⟩ := whileLoop_wellFormed mem mblen _ _ _ hv hwf
  simp only [] at h1 h2 h4
  rw [hlen, ht]
  exact ⟨by omega, by omega, by omega⟩

theorem tagparser_span_inside_witness :
    (hoordu_tagparser_start 0 3).begin ≤ (0 : Int) ∧
      (0 : Int) + 2 ≤ (hoordu_tagparser_start 0 3).end_ ∧ (0 : Int) < 2 :=
  tagparser_span_inside (bufferAt 0 [97, 32, 98]) singleByte
    (hoordu_tagparser_start 0 3) 0 0
    { code := 1, status := { begin := 0, end_ := 3, p := 2 }, t := 0, tlen := 2 }
    (le_refl _) (wellFormed_singleByte 3 0) (by decide) (by decide)

/-- C7 as stated fails: on the one-byte buffer `[0xC3]` read with a character
length of 2 at its first byte, the call returns a token whose span `(t, tlen)`
is `(begin, 2)`, which ends past `end = begin + 1`. -/
theorem tagparser_span_past_end :
    ∃ r, hoordu_tagparser_nexttoken (bufferAt 0 [195]) (fun _ => 2)
        (hoordu_tagparser_start 0 1) 0 0 = some r ∧
      r.code ≠ 0 ∧ r.t = 0 ∧ r.tlen = 2 ∧
      ¬ r.t + r.tlen ≤ (hoordu_tagparser_start 0 1).end_ :=
  ⟨_, rfl, by decide, rfl, rfl, by decide⟩

/-! ## End of stream -/

/-- A run that ends without a token start has met delimiters only. -/
theorem whileLoop_not_found (mem : Int → Nat) (mblen : Int → Nat) (n : Nat) :
    ∀ v r : ScanVars, whileLoop mem mblen n v = some r → r.found = false →
      v.end_ = false →
      ∀ q, CharStart mblen v.status.p q → q < v.status.end_ → isDelim mem mblen q := by
  induction n with
  | zero =>
    intro v r h _ he q hq hlt
    by_cases hc : loopCond v = true
    · simp [whileLoop, hc] at h
    · rw [loopCond_iff] at hc
      have := CharStart_le _ _ _ hq
      exact absurd ⟨by omega, he⟩ hc
  | succ n ih =>
    intro v r h hr he q hq hlt
    by_cases hc : loopCond v = true
    · rw [whileLoop_step _ _ _ _ hc] at h
      have hf1 : (loopBody mem mblen v).found = false := by
        by_contra hf1
        have := (whileLoop_found_keep mem mblen n _ _ h (by simpa using hf1)).1
        rw [hr] at this
        exact Bool.noConfusion this
      have hnot : ¬ (v.found = true ∨ ¬ isDelim mem mblen v.status.p) := by
        rw [← loopBody_found_iff]; simp [hf1]
      have hvf : v.found = false := by
        by_contra hvf; exact hnot (Or.inl (by simpa using hvf))
      have hd : isDelim mem mblen v.status.p := by
        by_contra hd; exact hnot (Or.inr hd)
      have he1 : (loopBody mem mblen v).end_ = false := by
        have : ¬ (loopBody mem mblen v).end_ = true := by
          rw [loopBody_end_iff]; simp [he, hvf]
        simpa using this
      cases hq with
      | here => exact hd
      | next _ _ hq1 =>
        refine ih _ _ h hr he1 q ?_ ?_
        · rw [loopBody_p]; exact hq1
        · rw [loopBody_end]; exact hlt
    · rw [loopCond_iff] at hc
      have := CharStart_le _ _ _ hq
      exact absurd ⟨by omega, he⟩ hc

/-- Over delimiters only, the loop terminates without a token start. -/
theorem whileLoop_delims (mem : Int → Nat) (mblen : Int → Nat) (n : Nat) :
    ∀ v : ScanVars, v.found = false → v.end_ = false →
      (∀ q, CharStart mblen v.status.p q → q < v.status.end_ → isDelim mem mblen q) →
      (v.status.end_ - v.status.p).toNat ≤ n →
      ∃ r, whileLoop mem mblen n v = some r ∧ r.found = false := by
  induction n with
  | zero =>
    intro v hf _ _ hn
    have hc : loopCond v = false := by
      have : ¬ loopCond v = true := by rw [loopCond_iff]; omega
      simpa using this
    exact ⟨v, whileLoop_done _ _ _ _ hc, hf⟩
  | succ n ih =>
    intro v hf he hall hn
    by_cases hc : loopCond v = true
    · rw [whileLoop_step _ _ _ _ hc]
      have hlt := ((loopCond_iff v).1 hc).1
      have hd := hall _ (CharStart.here _) hlt
      apply ih
      · have : ¬ (loopBody mem mblen v).found = true := by
          rw [loopBody_found_iff]; simp [hf, hd]
        simpa using this
      · have : ¬ (loopBody mem mblen v).end_ = true := by
          rw [loopBody_end_iff]; simp [he, hf]
        simpa using this
      · intro q hq hq1
        rw [loopBody_p] at hq
        rw [loopBody_end] at hq1
        exact hall q (CharStart.next _ _ hq) hq1
      · rw [loopBody_p, loopBody_end, hd.1]
        omega
    · have hc1 : loopCond v = false := by simpa using hc
      exact ⟨v, whileLoop_done _ _ _ _ hc1, hf⟩

theorem bufferAt_mem (base : Int) (buf : List Nat) (q : Int) (h1 : base ≤ q)
    (h2 : q < base + buf.length) : bufferAt base buf q ∈ buf := by
  unfold bufferAt
  have hlt : ¬ q < base := by omega
  have hi : (q - base).toNat < buf.length := by omega
  rw [if_neg hlt, List.getD_eq_getElem _ _ hi]
  exact List.getElem_mem _

/-- C5: a call of `hoordu_tagparser_nexttoken` returns 0 (end of stream)
exactly when every character that starts at or after the cursor and before
`end` is a single-byte space or a single-byte colon, that is, when no content
character remains; in particular the first call on a fresh scan over a buffer
of single-byte spaces and colons only (the empty buffer included) returns 0. -/
theorem tagparser_end_of_stream_iff (mem : Int → Nat) (mblen : Int → Nat)
    (st : TagParserStatus) (t0 tlen0 : Int) :
    ((∃ r, hoordu_tagparser_nexttoken mem mblen st t0 tlen0 = some r ∧ r.code = 0) ↔
      ∀ q, CharStart mblen st.p q → q < st.end_ → isDelim mem mblen q) ∧
    (∀ (base : Int) (buf : List Nat), (∀ b ∈ buf, b = SPACE ∨ b = COLON) →
      ∃ r, hoordu_tagparser_nexttoken (bufferAt base buf) singleByte
          (hoordu_tagparser_start base buf.length) t0 tlen0 = some r ∧ r.code = 0) := by
  have key : ∀ (mem : Int → Nat) (mblen : Int → Nat) (st : TagParserStatus),
      (∀ q, CharStart mblen st.p q → q < st.end_ → isDelim mem mblen q) →
      ∃ r, hoordu_tagparser_nexttoken mem mblen st t0 tlen0 = some r ∧ r.code = 0 := by
    intro mem mblen st hall
    obtain ⟨v, hv, hf⟩ := whileLoop_delims mem mblen (st.end_ - st.p).toNat
      { status := st, t := t0, found := false, end_ := false, has_category := false }
      rfl rfl hall (le_refl _)
    obtain ⟨r, hr, _, _, _, h0⟩ := nexttoken_of_loop mem mblen st t0 tlen0 _ v hv
    exact ⟨r, hr, (h0 hf).1⟩
  refine ⟨⟨?_, key mem mblen st⟩, ?_⟩
  · rintro ⟨r, hr, hcode⟩
    obtain ⟨v, hv, _, _, hfound, _⟩ := nexttoken_some mem mblen st t0 tlen0 r hr
    have hf : v.found = false := by
      by_contra hf
      have hf1 : v.found = true := by simpa using hf
      obtain ⟨_, h2, h1⟩ := hfound hf1
      by_cases hcat : v.has_category = true
      · rw [h2 hcat] at hcode; exact absurd hcode (by decide)
      · rw [h1 (by simpa using hcat)] at hcode; exact absurd hcode (by decide)
    exact whileLoop_not_found mem mblen _ _ _ hv hf rfl
  · intro base buf hbuf
    apply key
    intro q hq hlt
    have hle := CharStart_le _ _ _ hq
    simp only [hoordu_tagparser_start] at hle hlt
    exact ⟨rfl, hbuf _ (bufferAt_mem base buf q hle hlt)⟩

theorem tagparser_end_of_stream_iff_witness :
    (∃ r, hoordu_tagparser_nexttoken (bufferAt 0 []) singleByte
        (hoordu_tagparser_start 0 ([] : List Nat).length) 0 0 = some r ∧ r.code = 0) ∧
    (∃ r, hoordu_tagparser_nexttoken (bufferAt 0 [32, 32, 32, 58, 58, 58]) singleByte
        (hoordu_tagparser_start 0 [32, 32, 32, 58, 58, 58].length) 0 0 = some r ∧
          r.code = 0) :=
  ⟨(tagparser_end_of_stream_iff (bufferAt 0 []) singleByte
      (hoordu_tagparser_start 0 0) 0 0).2 0 [] (by simp),
   (tagparser_end_of_stream_iff (bufferAt 0 []) singleByte
      (hoordu_tagparser_start 0 0) 0 0).2 0 [32, 32, 32, 58, 58, 58] (by decide)⟩

/-! ## Category of a token -/

/-- At the exit of the loop `has_category` is set exactly when it was set at
entry or a single-byte colon lies among the characters the loop went over. -/
theorem whileLoop_has_category (mem : Int → Nat) (mblen : Int → Nat) (n : Nat) :
    ∀ v r : ScanVars, whileLoop mem mblen n v = some r →
      (r.has_category = true ↔ v.has_category = true ∨
        ∃ q, CharStart mblen v.status.p q ∧ q < r.status.p ∧ isColon mem mblen q) := by
  have base : ∀ v : ScanVars, (v.has_category = true ↔ v.has_category = true ∨
      ∃ q, CharStart mblen v.status.p q ∧ q < v.status.p ∧ isColon mem mblen q) := by
    intro v
    constructor
    · exact Or.inl
    · rintro (h | ⟨q, hq, hlt, _⟩)
      · exact h
      · have := CharStart_le _ _ _ hq
        omega
  induction n with
  | zero =>
    intro v r h
    by_cases hc : loopCond v = true
    · simp [whileLoop, hc] at h
    · have hc1 : loopCond v = false := by simpa using hc
      rw [whileLoop_done _ _ _ _ hc1] at h
      cases h
      exact base v
  | succ n ih =>
    intro v r h
    by_cases hc : loopCond v = true
    · rw [whileLoop_step _ _ _ _ hc] at h
      have hfr := (whileLoop_frame mem mblen n _ _ h).2.2
      rw [loopBody_p] at hfr
      rw [ih _ _ h, loopBody_has_category_iff, loopBody_p]
      constructor
      · rintro ((h1 | h1) | ⟨q, hq, hlt, hcol⟩)
        · exact Or.inl h1
        · have := h1.1
          exact Or.inr ⟨_, CharStart.here _, by omega, h1⟩
        · exact Or.inr ⟨q, CharStart.next _ _ hq, hlt, hcol⟩
      · rintro (h1 | ⟨q, hq, hlt, hcol⟩)
        · exact Or.inl (Or.inl h1)
        · cases hq with
          | here => exact Or.inl (Or.inr hcol)
          | next _ _ hq1 => exact Or.inr ⟨q, hq1, hlt, hcol⟩
    · have hc1 : loopCond v = false := by simpa using hc
      rw [whileLoop_done _ _ _ _ hc1] at h
      cases h
      exact base v

/-- C4: for every call of `hoordu_tagparser_nexttoken` that returns a token,
the code is `FULLTAG_TOKEN` exactly when a single-byte colon lies among the
characters the call consumed (those that start at or after the cursor at entry
and before the cursor at exit), and `TAG_TOKEN` exactly when none does; so a
token is `TAG_TOKEN` when no character from the cursor on is a single-byte
colon, and a single-byte colon inside the span makes it `FULLTAG_TOKEN`. -/
theorem tagparser_category_iff (mem : Int → Nat) (mblen : Int → Nat)
    (st : TagParserStatus) (t0 tlen0 : Int) (r : NextToken)
    (h : hoordu_tagparser_nexttoken mem mblen st t0 tlen0 = some r)
    (hcode : r.code ≠ 0) :
    (r.code = FULLTAG_TOKEN ↔
      ∃ q, CharStart mblen st.p q ∧ q < r.status.p ∧ isColon mem mblen q) ∧
    (r.code = TAG_TOKEN ↔
      ¬ ∃ q, CharStart mblen st.p q ∧ q < r.status.p ∧ isColon mem mblen q) ∧
    ((∀ q, CharStart mblen st.p q → ¬ isColon mem mblen q) → r.code = TAG_TOKEN) ∧
    (∀ q, CharStart mblen st.p q → r.t ≤ q → q < r.t + r.tlen → isColon mem mblen q →
      r.code = FULLTAG_TOKEN) := by
  obtain ⟨v, hv, hs, _, hfound, hnot⟩ := nexttoken_some mem mblen st t0 tlen0 r h
  have hf : v.found = true := by
    by_contra hf
    exact hcode (hnot (by simpa using hf)).1
  obtain ⟨hlen, h2, h1⟩ := hfound hf
  have hcat := whileLoop_has_category mem mblen _ _ _ hv
  simp only [Bool.false_eq_true, false_or] at hcat
  rw [← hs] at hcat
  have hA : r.code = FULLTAG_TOKEN ↔
      ∃ q, CharStart mblen st.p q ∧ q < r.status.p ∧ isColon mem mblen q := by
    rw [← hcat]
    constructor
    · intro hc
      by_contra hn
      rw [h1 (by simpa using hn)] at hc
      exact absurd hc (by decide)
    · exact h2
  have hB : r.code = TAG_TOKEN ↔
      ¬ ∃ q, CharStart mblen st.p q ∧ q < r.status.p ∧ isColon mem mblen q := by
    rw [← hcat]
    constructor
    · intro hc hn
      rw [h2 hn] at hc
      exact absurd hc (by decide)
    · intro hn
      exact h1 (by simpa using hn)
  refine ⟨hA, hB, ?_, ?_⟩
  · intro hall
    exact hB.2 (fun ⟨q, hq, _, hcol⟩ => hall q hq hcol)
  · intro q hq _ hlt hcol
    refine hA.2 ⟨q, hq, ?_, hcol⟩
    rw [hs]
    omega

theorem tagparser_category_iff_witness :
    ((2 : Int) = FULLTAG_TOKEN ↔
      ∃ q, CharStart singleByte (hoordu_tagparser_start 0 3).p q ∧ q < (3 : Int) ∧
        isColon (bufferAt 0 [97, 58, 98]) singleByte q) ∧
    ((2 : Int) = TAG_TOKEN ↔
      ¬ ∃ q, CharStart singleByte (hoordu_tagparser_start 0 3).p q ∧ q < (3 : Int) ∧
        isColon (bufferAt 0 [97, 58, 98]) singleByte q) ∧
    ((∀ q, CharStart singleByte (hoordu_tagparser_start 0 3).p q →
        ¬ isColon (bufferAt 0 [97, 58, 98]) singleByte q) → (2 : Int) = TAG_TOKEN) ∧
    (∀ q, CharStart singleByte (hoordu_tagparser_start 0 3).p q → (0 : Int) ≤ q →
      q < (0 : Int) + 3 → isColon (bufferAt 0 [97, 58, 98]) singleByte q →
      (2 : Int) = FULLTAG_TOKEN) :=
  tagparser_category_iff (bufferAt 0 [97, 58, 98]) singleByte
    (hoordu_tagparser_start 0 3) 0 0
    { code := 2, status := { begin := 0, end_ := 3, p := 3 }, t := 0, tlen := 3 }
    (by decide) (by decide)

/-! ## Leading colons -/

theorem loopBody_colon (mem : Int → Nat) (mblen : Int → Nat) (v : ScanVars)
    (h : isColon mem mblen v.status.p) :
    loopBody mem mblen v =
      { v with status := { v.status with p := v.status.p + 1 }, has_category := true } := by
  obtain ⟨h1, h2⟩ := h
  unfold loopBody
  simp [h1, h2, SPACE, COLON]

theorem loopBody_content (mem : Int → Nat) (mblen : Int → Nat) (v : ScanVars)
    (h : ¬ isDelim mem mblen v.status.p) :
    loopBody mem mblen v =
      { v with status := { v.status with p := v.status.p + mblen v.status.p },
               t := if v.found then v.t else v.status.p, found := true } := by
  unfold isDelim at h
  unfold loopBody
  simp only []
  split_ifs <;> simp_all

/-- The loop goes over a run of single-byte colons met before any token start
and only sets `has_category`. -/
theorem whileLoop_colons (mem : Int → Nat) (mblen : Int → Nat) (a m : Int)
    (hrun : CharRun mblen (isColon mem mblen) a m) :
    ∀ (v r : ScanVars), v.status.p = a → v.found = false → v.end_ = false →
      m ≤ v.status.end_ → a < m →
      (∃ n, whileLoop mem mblen n
        { v with status := { v.status with p := m }, has_category := true } = some r) →
      ∃ n, whileLoop mem mblen n v = some r := by
  induction hrun with
  | nil a => intro v r _ _ _ _ hlt; omega
  | cons a m hcol hlen hrest ih =>
    intro v r hp hf he hm _ hr
    have hle := CharRun_le _ _ _ _ hrest
    have hcol1 : isColon mem mblen v.status.p := by rw [hp]; exact hcol
    have hc : loopCond v = true := by rw [loopCond_iff]; exact ⟨by omega, he⟩
    have h1 : mblen a = 1 := hcol.1
    rw [h1] at hle hrest ih
    by_cases hlast : a + ((1 : Nat) : Int) = m
    · obtain ⟨n, hn⟩ := hr
      refine ⟨n + 1, ?_⟩
      rw [whileLoop_step _ _ _ _ hc, loopBody_colon _ _ _ hcol1, ← hn, hp]
      have e : a + ((1 : Nat) : Int) = a + 1 := by simp
      rw [← hlast, e]
    · have hstep := ih (loopBody mem mblen v) r
        (by rw [loopBody_p, hp, h1]) (by rw [loopBody_colon _ _ _ hcol1]; exact hf)
        (by rw [loopBody_colon _ _ _ hcol1]; exact he)
        (by rw [loopBody_end]; exact hm) (by omega)
        (by rw [loopBody_colon _ _ _ hcol1]; exact hr)
      obtain ⟨n, hn⟩ := hstep
      exact ⟨n + 1, by rw [whileLoop_step _ _ _ _ hc]; exact hn⟩

/-- The loop goes over a run of content characters that reaches `end` and
stops there, the token start being kept. -/
theorem whileLoop_content (mem : Int → Nat) (mblen : Int → Nat) (a e : Int)
    (hrun : CharRun mblen (fun q => ¬ isDelim mem mblen q) a e) :
    ∀ v : ScanVars, v.status.p = a → v.status.end_ = e → v.found = true →
      v.end_ = false →
      ∃ n, whileLoop mem mblen n v = some { v with status := { v.status with p := e } } := by
  induction hrun with
  | nil a =>
    intro v hp he _ _
    refine ⟨0, ?_⟩
    have hc : loopCond v = false := by
      have : ¬ loopCond v = true := by rw [loopCond_iff]; omega
      simpa using this
    rw [whileLoop_done _ _ _ _ hc, ← hp]
  | cons a e hcont hlen hrest ih =>
    intro v hp he hf hend
    have hle := CharRun_le _ _ _ _ hrest
    have hc : loopCond v = true := by rw [loopCond_iff]; exact ⟨by omega, hend⟩
    have hcont1 : ¬ isDelim mem mblen v.status.p := by rw [hp]; exact hcont
    obtain ⟨n, hn⟩ := ih (loopBody mem mblen v) (by rw [loopBody_p, hp])
      (by rw [loopBody_end, he]) ((loopBody_found_iff mem mblen v).2 (Or.inl hf))
      (by rw [loopBody_content _ _ _ hcont1]; exact hend)
    refine ⟨n + 1, ?_⟩
    rw [whileLoop_step _ _ _ _ hc, hn, loopBody_content _ _ _ hcont1]
    simp [hf]

/-- C3: on a buffer made of one or more single-byte colons followed up to its
end by a non-empty run of content characters (none a single-byte space or a
single-byte colon), the first call on a fresh scan returns a token of category
`FULLTAG_TOKEN` whose span starts after the colons and is the whole content
run, the next call returns 0, and the scan yields that one token. -/
theorem tagparser_leading_colons (mem : Int → Nat) (mblen : Int → Nat)
    (begin len m t0 tlen0 : Int)
    (hcol : CharRun mblen (isColon mem mblen) begin m) (h1 : begin < m)
    (hrun : CharRun mblen (fun q => ¬ isDelim mem mblen q) m (begin + len))
    (h2 : m < begin + len) :
    ∃ r, hoordu_tagparser_nexttoken mem mblen (hoordu_tagparser_start begin len) t0 tlen0
        = some r ∧
      r.code = FULLTAG_TOKEN ∧ r.t = m ∧ r.tlen = begin + len - m ∧
      (∃ r1, hoordu_tagparser_nexttoken mem mblen r.status r.t r.tlen = some r1 ∧
        r1.code = 0) ∧
      ∀ n, scanTokens mem mblen (n + 2) (hoordu_tagparser_start begin len) t0 tlen0 =
        some [(FULLTAG_TOKEN, spanText mem m (begin + len - m))] := by
  obtain ⟨hcont, hlen, hrest⟩ := CharRun_head _ _ _ _ hrun h2
  -- the variables once the colons are passed
  let w : ScanVars :=
    { status := { begin := begin, end_ := begin + len, p := m }, t := t0, found := false,
      end_ := false, has_category := true }
  have hcw : loopCond w = true := by rw [loopCond_iff]; exact ⟨h2, rfl⟩
  obtain ⟨n, hn⟩ := whileLoop_content mem mblen _ _ hrest (loopBody mem mblen w)
    (by rw [loopBody_p]) (by rw [loopBody_end])
    ((loopBody_found_iff mem mblen w).2 (Or.inr hcont))
    (by rw [loopBody_content _ _ _ hcont])
  rw [loopBody_content _ _ _ hcont] at hn
  have hw : ∃ k, whileLoop mem mblen k w = some
      { status := { begin := begin, end_ := begin + len, p := begin + len }, t := m,
        found := true, end_ := false, has_category := true } :=
    ⟨n + 1, by rw [whileLoop_step _ _ _ _ hcw, loopBody_content _ _ _ hcont]; exact hn⟩
  obtain ⟨k, hk⟩ := whileLoop_colons mem mblen begin m hcol
    { status := hoordu_tagparser_start begin len, t := t0, found := false, end_ := false,
      has_category := false } _ rfl rfl rfl (le_of_lt h2) h1 hw
  obtain ⟨r, hr, hs, ht, hfound, _⟩ := nexttoken_of_loop mem mblen _ t0 tlen0 k _ hk
  obtain ⟨htl, hcode, _⟩ := hfound rfl
  have hcode1 := hcode rfl
  simp only [] at hs ht htl
  -- the second call starts at `end`
  let w1 : ScanVars :=
    { status := r.status, t := r.t, found := false, end_ := false, has_category := false }
  have hcw1 : loopCond w1 = false := by
    have hn1 : ¬ loopCond w1 = true := by
      rw [loopCond_iff]
      show ¬ (r.status.p < r.status.end_ ∧ false = false)
      rw [hs]
      simp
    simpa using hn1
  have hdone : whileLoop mem mblen 0 w1 = some w1 := whileLoop_done _ _ _ _ hcw1
  obtain ⟨r1, hr1, _, _, _, hzero⟩ := nexttoken_of_loop mem mblen _ r.t r.tlen 0 _ hdone
  have hr1code := (hzero rfl).1
  refine ⟨r, hr, hcode1, ht, htl, ⟨r1, hr1, hr1code⟩, ?_⟩
  intro j
  have hne : r.code ≠ 0 := by rw [hcode1]; decide
  simp only [scanTokens, hr, hr1, hne, hr1code, if_true, if_false, Option.map_some']
  rw [hcode1, ht, htl]

theorem tagparser_leading_colons_witness :
    ∃ r, hoordu_tagparser_nexttoken (bufferAt 0 [58, 58, 97, 98, 99]) singleByte
        (hoordu_tagparser_start 0 5) 0 0 = some r ∧
      r.code = FULLTAG_TOKEN ∧ r.t = 2 ∧ r.tlen = 0 + 5 - 2 ∧
      (∃ r1, hoordu_tagparser_nexttoken (bufferAt 0 [58, 58, 97, 98, 99]) singleByte
          r.status r.t r.tlen = some r1 ∧ r1.code = 0) ∧
      ∀ n, scanTokens (bufferAt 0 [58, 58, 97, 98, 99]) singleByte (n + 2)
          (hoordu_tagparser_start 0 5) 0 0 =
        some [(FULLTAG_TOKEN, spanText (bufferAt 0 [58, 58, 97, 98, 99]) 2 (0 + 5 - 2))] :=
  tagparser_leading_colons (bufferAt 0 [58, 58, 97, 98, 99]) singleByte 0 5 2 0 0
    (charRun_singleByte _ 2 0 (by decide)) (by decide)
    (charRun_singleByte _ 3 2 (by decide)) (by decide)

/-! ## The terminating space -/

/-- C1, the code at the input of the claim: on the buffer `"  a   b  "` the
pull loop yields two `TAG_TOKEN` tokens whose span texts are `"a "` and `"b "`,
each with the space that ended it, not `"a"` and `"b"`. -/
theorem tagparser_scan_spaces_a_b :
    scanTokens (bufferAt 0 [32, 32, 97, 32, 32, 32, 98, 32, 32]) singleByte 3
        (hoordu_tagparser_start 0 9) 0 0 =
      some [(TAG_TOKEN, [97, 32]), (TAG_TOKEN, [98, 32])] ∧
    [(TAG_TOKEN, [97, 32]), (TAG_TOKEN, [98, 32])] ≠
      [(TAG_TOKEN, [97]), (TAG_TOKEN, [98])] :=
  ⟨by decide, by decide⟩

/-- C2, the code at a failing input: on the buffer `"a b"` the first call
returns the span `(begin, 2)`, whose text is `"a "`: the single-byte space at
`begin + 1`, which ended the token, lies inside the span. -/
theorem tagparser_span_holds_space :
    ∃ r, hoordu_tagparser_nexttoken (bufferAt 0 [97, 32, 98]) singleByte
        (hoordu_tagparser_start 0 3) 0 0 = some r ∧
      r.code = TAG_TOKEN ∧ r.t = 0 ∧ r.tlen = 2 ∧
      r.t ≤ 1 ∧ 1 < r.t + r.tlen ∧ isSpace (bufferAt 0 [97, 32, 98]) singleByte 1 ∧
      spanText (bufferAt 0 [97, 32, 98]) r.t r.tlen = [97, 32] :=
  ⟨_, rfl, rfl, rfl, rfl, by decide, by decide, by decide, by decide⟩

/-! ## Tag dictionary -/

theorem pg_mbstrlen_total (mblen : List Nat → Nat) (hpos : ∀ s, 1 ≤ mblen s) (n : Nat) :
    ∀ s : List Nat, s.length ≤ n → ∃ m, pg_mbstrlen mblen n s = some m := by
  induction n with
  | zero =>
    intro s hs
    cases s with
    | nil => exact ⟨0, by simp [pg_mbstrlen]⟩
    | cons c s => simp at hs
  | succ n ih =>
    intro s hs
    cases s with
    | nil => exact ⟨0, by simp [pg_mbstrlen]⟩
    | cons c s =>
      have hlen : ((c :: s).drop (mblen (c :: s))).length ≤ n := by
        have := hpos (c :: s)
        simp only [List.length_drop, List.length_cons] at hs ⊢
        omega
      obtain ⟨m, hm⟩ := ih _ hlen
      exact ⟨m + 1, by simp [pg_mbstrlen, hm]⟩

/-- A non-empty C string has at least one character. -/
theorem pg_mbstrlen_cons (mblen : List Nat → Nat) (n m : Nat) (c : Nat) (s : List Nat)
    (h : pg_mbstrlen mblen n (c :: s) = some m) :
    ∃ n1 m1, n = n1 + 1 ∧ m = m1 + 1 ∧
      pg_mbstrlen mblen n1 ((c :: s).drop (mblen (c :: s))) = some m1 := by
  cases n with
  | zero => simp [pg_mbstrlen] at h
  | succ n =>
    simp only [pg_mbstrlen, Option.map_eq_some'] at h
    obtain ⟨m1, h1, h2⟩ := h
    exact ⟨n, m1, rfl, h2.symm, h1⟩

/-- The lexemes of the result of `hoordu_tagdict_lexize`, by the outcome of
its loop. -/
theorem lexize_lexemes (lowerstr : List Nat → List Nat) (mblen : List Nat → Nat)
    (d : TagDict) (t : List Nat) (m : Nat)
    (hm : pg_mbstrlen mblen (lowerstr t).length (lowerstr t) = some m) :
    ∃ res, hoordu_tagdict_lexize lowerstr mblen d t = some res ∧
      lexemesOf res =
        if d.split_tags = 1 ∧ (splitLoop mblen m (lowerstr t)).1 = true then
          [(1, lowerstr t), (2, (splitLoop mblen m (lowerstr t)).2)]
        else [(1, lowerstr t)] := by
  unfold hoordu_tagdict_lexize
  simp only [hm]
  by_cases hd : d.split_tags = 1
  · rcases hsl : splitLoop mblen m (lowerstr t) with ⟨b, txt1⟩
    cases b
    · simp only [hd, if_true]
      refine ⟨_, rfl, ?_⟩
      simp [lexemesOf, List.replicate]
    · simp only [hd, if_true]
      refine ⟨_, rfl, ?_⟩
      simp [lexemesOf, List.replicate]
  · simp only [hd, if_false]
    refine ⟨_, rfl, ?_⟩
    simp [lexemesOf, List.replicate]

/-- The loop stops right after the first single-byte colon of the string. -/
theorem splitLoop_first_colon (mblen : List Nat → Nat) (pre suf rest : List Nat)
    (hpre : CharPrefix mblen (fun c => c ≠ [COLON]) pre suf)
    (hsuf : suf = COLON :: rest) (hc : mblen (COLON :: rest) = 1) :
    ∀ n m, pg_mbstrlen mblen n (pre ++ suf) = some m →
      splitLoop mblen m (pre ++ suf) = (true, rest) := by
  induction hpre with
  | nil suf =>
    intro n m h
    subst hsuf
    obtain ⟨n1, m1, _, rfl, _⟩ := pg_mbstrlen_cons mblen n m _ _ h
    simp [splitLoop, hc]
  | cons c pre suf hne hlen hP _ ih =>
    intro n m h
    obtain ⟨c0, c1, rfl⟩ := List.exists_cons_of_ne_nil hne
    have hs : (c0 :: c1 ++ pre) ++ suf = c0 :: (c1 ++ (pre ++ suf)) := by simp
    have hlen1 : mblen (c0 :: (c1 ++ (pre ++ suf))) = c1.length + 1 := by
      simpa using hlen
    rw [hs] at h ⊢
    obtain ⟨n1, m1, _, rfl, h1⟩ := pg_mbstrlen_cons mblen n m _ _ h
    rw [hlen1] at h1
    simp only [List.drop_succ_cons, List.drop_left] at h1
    have hnot : ¬ (c1.length + 1 = 1 ∧ c0 = COLON) := by
      rintro ⟨h2, h3⟩
      have : c1 = [] := List.eq_nil_of_length_eq_zero (by omega)
      exact hP (by rw [this, h3])
    simp only [splitLoop, hlen1, List.headD_cons, hnot, decide_False, Bool.false_eq_true,
      if_false, List.drop_succ_cons, List.drop_left]
    exact ih hsuf n1 m1 h1

/-- When the loop finds a colon, the string is made of whole characters none
of which is a single-byte colon, then a single-byte colon, then the text the
loop stops at. -/
theorem splitLoop_found (mblen : List Nat → Nat) (hpos : ∀ s, 1 ≤ mblen s) (n : Nat) :
    ∀ s rest : List Nat, splitLoop mblen n s = (true, rest) →
      ∃ pre, s = pre ++ COLON :: rest ∧
        CharPrefix mblen (fun c => c ≠ [COLON]) pre (COLON :: rest) ∧
        mblen (COLON :: rest) = 1 := by
  induction n with
  | zero => intro s rest h; simp [splitLoop] at h
  | succ n ih =>
    intro s rest h
    by_cases hf : mblen s = 1 ∧ s.headD 0 = COLON
    · simp only [splitLoop, hf, and_self, decide_True, if_true, Prod.mk.injEq, true_and] at h
      cases s with
      | nil => simp [COLON] at hf
      | cons c s =>
        simp only [List.headD_cons] at hf
        simp only [List.drop_succ_cons, List.drop_zero] at h
        subst h
        refine ⟨[], by simp [hf.2], CharPrefix.nil _, ?_⟩
        rw [← hf.2]; exact hf.1
    · simp only [splitLoop, hf, decide_False, Bool.false_eq_true, if_false] at h
      obtain ⟨pre, hdrop, hpre, hc⟩ := ih _ _ h
      have hk := hpos s
      have hlt : mblen s < s.length := by
        by_contra hge
        rw [List.drop_eq_nil_of_le (by omega)] at hdrop
        simp at hdrop
      have hlen : (s.take (mblen s)).length = mblen s := by
        rw [List.length_take]; omega
      have hs : s = s.take (mblen s) ++ (pre ++ COLON :: rest) := by
        rw [← hdrop, List.take_append_drop]
      refine ⟨s.take (mblen s) ++ pre, by rw [List.append_assoc]; exact hs, ?_, hc⟩
      refine CharPrefix.cons _ _ _ ?_ ?_ ?_ hpre
      · intro hnil
        rw [hnil] at hlen
        simp at hlen
        omega
      · rw [← hs, hlen]
      · intro hcol
        apply hf
        rw [hcol] at hlen
        refine ⟨by simpa using hlen.symm, ?_⟩
        rw [hs, hcol]
        rfl

/-- A string that contains a single-byte colon has a first one. -/
theorem charPrefix_first_colon (mblen : List Nat → Nat) (pre suf : List Nat)
    (hpre : CharPrefix mblen (fun _ => True) pre suf) :
    ∀ rest, suf = COLON :: rest → mblen (COLON :: rest) = 1 →
      ∃ pre1 rest1, pre ++ suf = pre1 ++ COLON :: rest1 ∧
        CharPrefix mblen (fun c => c ≠ [COLON]) pre1 (COLON :: rest1) ∧
        mblen (COLON :: rest1) = 1 := by
  induction hpre with
  | nil suf =>
    intro rest hsuf hc
    exact ⟨[], rest, by simp [hsuf], CharPrefix.nil _, hc⟩
  | cons c pre suf hne hlen _ _ ih =>
    intro rest hsuf hc
    by_cases hcol : c = [COLON]
    · refine ⟨[], pre ++ suf, by simp [hcol], CharPrefix.nil _, ?_⟩
      rw [hcol] at hlen
      simpa using hlen
    · obtain ⟨pre1, rest1, heq, hpre1, hc1⟩ := ih rest hsuf hc
      refine ⟨c ++ pre1, rest1, by rw [List.append_assoc, heq, List.append_assoc], ?_, hc1⟩
      refine CharPrefix.cons _ _ _ hne ?_ hcol hpre1
      rw [← heq]; exact hlen

theorem CharPrefix_mono (mblen : List Nat → Nat) (P Q : List Nat → Prop)
    (hPQ : ∀ c, P c → Q c) (pre suf : List Nat) (h : CharPrefix mblen P pre suf) :
    CharPrefix mblen Q pre suf := by
  induction h with
  | nil suf => exact CharPrefix.nil suf
  | cons c pre suf hne hlen hP _ ih => exact CharPrefix.cons c pre suf hne hlen (hPQ c hP) ih

/-- In a single-byte encoding every byte of a prefix is a character. -/
theorem charPrefix_oneByte (P : List Nat → Prop) (suf : List Nat) :
    ∀ pre : List Nat, (∀ b ∈ pre, P [b]) → CharPrefix oneByte P pre suf := by
  intro pre
  induction pre with
  | nil => intro _; exact CharPrefix.nil suf
  | cons b pre ih =>
    intro h
    have := CharPrefix.cons [b] pre suf (by simp) rfl (h b (by simp))
      (ih (fun x hx => h x (by simp [hx])))
    simpa using this

/-- C8: for every configuration and every token text `t`, with a character
length of at least 1 everywhere, `hoordu_tagdict_lexize` returns a result whose
first lexeme exists, has variant number 1 and has as text the lowercasing of
the whole of `t`; when `split_tags` is 0 that is the only lexeme; and the text
is as long as `t` when the lowercasing works byte by byte. -/
theorem lexize_base_lexeme (lowerstr : List Nat → List Nat) (mblen : List Nat → Nat)
    (hpos : ∀ s, 1 ≤ mblen s) (d : TagDict) (t : List Nat) :
    ∃ res, hoordu_tagdict_lexize lowerstr mblen d t = some res ∧
      (lexemesOf res).head? = some (1, lowerstr t) ∧
      (d.split_tags = 0 → lexemesOf res = [(1, lowerstr t)]) ∧
      (∀ f : Nat → Nat, lowerstr = List.map f → (lowerstr t).length = t.length) := by
  obtain ⟨m, hm⟩ := pg_mbstrlen_total mblen hpos _ (lowerstr t) (le_refl _)
  obtain ⟨res, hres, hlex⟩ := lexize_lexemes lowerstr mblen d t m hm
  refine ⟨res, hres, ?_, ?_, ?_⟩
  · rw [hlex]; split_ifs <;> rfl
  · intro hd
    rw [hlex, if_neg]
    rintro ⟨h1, _⟩
    rw [hd] at h1
    exact absurd h1 (by decide)
  · intro f hf
    rw [hf, List.length_map]

theorem lexize_base_lexeme_witness :
    (∃ res, hoordu_tagdict_lexize asciiLower oneByte { split_tags := 0 }
        [67, 104, 97, 114, 97, 99, 116, 101, 114, 58, 71, 111, 107, 117] = some res ∧
      (lexemesOf res).head? = some (1, asciiLower
        [67, 104, 97, 114, 97, 99, 116, 101, 114, 58, 71, 111, 107, 117]) ∧
      ((({ split_tags := 0 } : TagDict)).split_tags = 0 → lexemesOf res = [(1, asciiLower
        [67, 104, 97, 114, 97, 99, 116, 101, 114, 58, 71, 111, 107, 117])]) ∧
      (∀ f : Nat → Nat, asciiLower = List.map f → (asciiLower
        [67, 104, 97, 114, 97, 99, 116, 101, 114, 58, 71, 111, 107, 117]).length =
        [67, 104, 97, 114, 97, 99, 116, 101, 114, 58, 71, 111, 107, 117].length)) ∧
    asciiLower [67, 104, 97, 114, 97, 99, 116, 101, 114, 58, 71, 111, 107, 117] =
      [99, 104, 97, 114, 97, 99, 116, 101, 114, 58, 103, 111, 107, 117] :=
  ⟨lexize_base_lexeme asciiLower oneByte (fun _ => le_refl 1) { split_tags := 0 }
    [67, 104, 97, 114, 97, 99, 116, 101, 114, 58, 71, 111, 107, 117], by decide⟩

/-- C9 (amended): for every configuration and every token text, with a
character length of at least 1 everywhere, `hoordu_tagdict_lexize` emits a
lexeme of variant number 2 if and only if `split_tags` equals 1 and the
lowercased token contains a single-byte colon; otherwise the output is the one
lexeme of variant number 1. -/
theorem lexize_second_lexeme_iff (lowerstr : List Nat → List Nat)
    (mblen : List Nat → Nat) (hpos : ∀ s, 1 ≤ mblen s) (d : TagDict) (t : List Nat) :
    ∃ res, hoordu_tagdict_lexize lowerstr mblen d t = some res ∧
      ((∃ x ∈ lexemesOf res, x.1 = 2) ↔
        (d.split_tags = 1 ∧ HasColon mblen (lowerstr t))) ∧
      (¬ (d.split_tags = 1 ∧ HasColon mblen (lowerstr t)) →
        lexemesOf res = [(1, lowerstr t)]) := by
  obtain ⟨m, hm⟩ := pg_mbstrlen_total mblen hpos _ (lowerstr t) (le_refl _)
  obtain ⟨res, hres, hlex⟩ := lexize_lexemes lowerstr mblen d t m hm
  have hiff : (d.split_tags = 1 ∧ (splitLoop mblen m (lowerstr t)).1 = true) ↔
      (d.split_tags = 1 ∧ HasColon mblen (lowerstr t)) := by
    constructor
    · rintro ⟨hd, hfound⟩
      refine ⟨hd, ?_⟩
      obtain ⟨pre, hs, hpre, hc⟩ := splitLoop_found mblen hpos m (lowerstr t)
        (splitLoop mblen m (lowerstr t)).2 (by rw [← hfound])
      exact ⟨pre, _, hs, CharPrefix_mono mblen _ _ (fun _ _ => trivial) _ _ hpre, hc⟩
    · rintro ⟨hd, pre, rest, hs, hpre, hc⟩
      refine ⟨hd, ?_⟩
      obtain ⟨pre1, rest1, heq, hpre1, hc1⟩ :=
        charPrefix_first_colon mblen pre _ hpre rest rfl hc
      rw [← hs] at heq
      rw [heq] at hm ⊢
      rw [splitLoop_first_colon mblen pre1 _ rest1 hpre1 rfl hc1 _ m hm]
  refine ⟨res, hres, ?_, ?_⟩
  · rw [← hiff, hlex]
    split_ifs with h
    · simp [h]
    · simp [h]
  · intro hn
    rw [hlex, if_neg (fun h => hn (hiff.1 h))]

theorem lexize_second_lexeme_iff_witness :
    ∃ res, hoordu_tagdict_lexize asciiLower oneByte { split_tags := 1 }
        [115, 105, 109, 112, 108, 101, 116, 97, 103] = some res ∧
      ((∃ x ∈ lexemesOf res, x.1 = 2) ↔
        ((({ split_tags := 1 } : TagDict)).split_tags = 1 ∧
          HasColon oneByte (asciiLower [115, 105, 109, 112, 108, 101, 116, 97, 103]))) ∧
      (¬ ((({ split_tags := 1 } : TagDict)).split_tags = 1 ∧
          HasColon oneByte (asciiLower [115, 105, 109, 112, 108, 101, 116, 97, 103])) →
        lexemesOf res = [(1, asciiLower [115, 105, 109, 112, 108, 101, 116, 97, 103])]) :=
  lexize_second_lexeme_iff asciiLower oneByte (fun _ => le_refl 1) { split_tags := 1 }
    [115, 105, 109, 112, 108, 101, 116, 97, 103]

/-- C9 as stated fails: with `split_tags = 2` (nonzero) and the token `"a:b"`,
whose lowercased text contains a single-byte colon, the output is the one
lexeme `(1, "a:b")`: no lexeme of variant number 2 is emitted. -/
theorem lexize_flag_two_no_split :
    ∃ res, hoordu_tagdict_lexize asciiLower oneByte { split_tags := 2 } [97, 58, 98]
        = some res ∧
      (({ split_tags := 2 } : TagDict)).split_tags ≠ 0 ∧
      HasColon oneByte (asciiLower [97, 58, 98]) ∧
      lexemesOf res = [(1, [97, 58, 98])] ∧ ¬ ∃ x ∈ lexemesOf res, x.1 = 2 :=
  ⟨_, rfl, by decide,
    ⟨[97], [98], by decide, charPrefix_oneByte _ _ [97] (fun _ _ => trivial), rfl⟩,
    by decide, by decide⟩

/-- C10: for every token text, with a character length of at least 1
everywhere: when the lowercased form contains a single-byte colon, it is
`pre ++ ":" ++ rest` with `pre` made of whole characters none of which is a
single-byte colon; and for such `pre` and `rest`, `hoordu_tagdict_lexize` with
`split_tags = 1` returns exactly the two lexemes `(1, lowered)` and
`(2, rest)`: `rest` is the text strictly after the first colon (empty when the
colon is the last character, everything after a colon at position 0). -/
theorem lexize_split_first_colon (lowerstr : List Nat → List Nat)
    (mblen : List Nat → Nat) (hpos : ∀ s, 1 ≤ mblen s) (t : List Nat) :
    (HasColon mblen (lowerstr t) →
      ∃ pre rest, lowerstr t = pre ++ COLON :: rest ∧
        CharPrefix mblen (fun c => c ≠ [COLON]) pre (COLON :: rest) ∧
        mblen (COLON :: rest) = 1) ∧
    (∀ pre rest, lowerstr t = pre ++ COLON :: rest →
      CharPrefix mblen (fun c => c ≠ [COLON]) pre (COLON :: rest) →
      mblen (COLON :: rest) = 1 →
      ∃ res, hoordu_tagdict_lexize lowerstr mblen { split_tags := 1 } t = some res ∧
        lexemesOf res = [(1, lowerstr t), (2, rest)]) := by
  constructor
  · rintro ⟨pre, rest, hs, hpre, hc⟩
    obtain ⟨pre1, rest1, heq, hpre1, hc1⟩ :=
      charPrefix_first_colon mblen pre _ hpre rest rfl hc
    exact ⟨pre1, rest1, by rw [hs, heq], hpre1, hc1⟩
  · intro pre rest h hpre hc
    obtain ⟨m, hm⟩ := pg_mbstrlen_total mblen hpos _ (lowerstr t) (le_refl _)
    obtain ⟨res, hres, hlex⟩ := lexize_lexemes lowerstr mblen { split_tags := 1 } t m hm
    refine ⟨res, hres, ?_⟩
    rw [hlex]
    rw [h] at hm
    have hsl := splitLoop_first_colon mblen pre _ rest hpre rfl hc _ m hm
    rw [← h] at hsl
    rw [hsl]
    simp

theorem lexize_split_first_colon_witness :
    (∃ res, hoordu_tagdict_lexize asciiLower oneByte { split_tags := 1 }
        [67, 104, 97, 114, 97, 99, 116, 101, 114, 58, 71, 111, 107, 117] = some res ∧
      lexemesOf res = [(1, asciiLower
        [67, 104, 97, 114, 97, 99, 116, 101, 114, 58, 71, 111, 107, 117]),
        (2, [103, 111, 107, 117])]) ∧
    asciiLower [67, 104, 97, 114, 97, 99, 116, 101, 114, 58, 71, 111, 107, 117] =
      [99, 104, 97, 114, 97, 99, 116, 101, 114, 58, 103, 111, 107, 117] :=
  ⟨(lexize_split_first_colon asciiLower oneByte (fun _ => le_refl 1)
    [67, 104, 97, 114, 97, 99, 116, 101, 114, 58, 71, 111, 107, 117]).2
    [99, 104, 97, 114, 97, 99, 116, 101, 114] [103, 111, 107, 117] (by decide)
    (charPrefix_oneByte _ _ _ (by decide)) rfl, by decide⟩

/-! ## Token types -/

/-- The return code of a call that returns is 0, `TAG_TOKEN` or
`FULLTAG_TOKEN`. -/
theorem nexttoken_code (mem : Int → Nat) (mblen : Int → Nat) (st : TagParserStatus)
    (t0 tlen0 : Int) (r : NextToken)
    (h : hoordu_tagparser_nexttoken mem mblen st t0 tlen0 = some r) :
    r.code = 0 ∨ r.code = TAG_TOKEN ∨ r.code = FULLTAG_TOKEN := by
  obtain ⟨v, _, _, _, hfound, hnot⟩ := nexttoken_some mem mblen st t0 tlen0 r h
  by_cases hf : v.found = true
  · obtain ⟨_, h2, h1⟩ := hfound hf
    by_cases hcat : v.has_category = true
    · exact Or.inr (Or.inr (h2 hcat))
    · exact Or.inr (Or.inl (h1 (by simpa using hcat)))
  · exact Or.inl (hnot (by simpa using hf)).1

/-- C14: `hoordu_tagparser_lextype` returns, whatever the memory held, the
array of the two entries `(1, "tag", "A tag")` and
`(2, "fulltag", "A tag with category")`, in this order, followed by the end
marker with `lexid` 0; the two ids are `TAG_TOKEN` and `FULLTAG_TOKEN`, and
every nonzero code `hoordu_tagparser_nexttoken` returns is the id of one of the
two entries. -/
theorem lextype_categories (junk : LexDescr) :
    hoordu_tagparser_lextype junk =
      [{ lexid := 1, alias_ := some "tag", descr := some "A tag" },
       { lexid := 2, alias_ := some "fulltag", descr := some "A tag with category" },
       { junk with lexid := 0 }] ∧
    lexTypesOf (hoordu_tagparser_lextype junk) =
      [{ lexid := TAG_TOKEN, alias_ := some "tag", descr := some "A tag" },
       { lexid := FULLTAG_TOKEN, alias_ := some "fulltag",
         descr := some "A tag with category" }] ∧
    TAG_TOKEN = 1 ∧ FULLTAG_TOKEN = 2 ∧
    (∀ (mem : Int → Nat) (mblen : Int → Nat) (st : TagParserStatus) (t0 tlen0 : Int)
      (r : NextToken), hoordu_tagparser_nexttoken mem mblen st t0 tlen0 = some r →
      r.code ≠ 0 → ∃ e ∈ lexTypesOf (hoordu_tagparser_lextype junk), e.lexid = r.code) := by
  refine ⟨rfl, rfl, rfl, rfl, ?_⟩
  intro mem mblen st t0 tlen0 r h hne
  have hl : lexTypesOf (hoordu_tagparser_lextype junk) =
      [{ lexid := TAG_TOKEN, alias_ := some "tag", descr := some "A tag" },
       { lexid := FULLTAG_TOKEN, alias_ := some "fulltag",
         descr := some "A tag with category" }] := rfl
  rw [hl]
  rcases nexttoken_code mem mblen st t0 tlen0 r h with h0 | h1 | h2
  · exact absurd h0 hne
  · exact ⟨_, List.mem_cons_self _ _, h1.symm⟩
  · exact ⟨_, List.mem_cons_of_mem _ (List.mem_cons_self _ _), h2.symm⟩

theorem lextype_categories_witness :
    ∃ e ∈ lexTypesOf (hoordu_tagparser_lextype { lexid := 7, alias_ := none, descr := none }),
      e.lexid = (2 : Int) :=
  (lextype_categories { lexid := 7, alias_ := none, descr := none }).2.2.2.2
    (bufferAt 0 [97, 58, 98]) singleByte (hoordu_tagparser_start 0 3) 0 0
    { code := 2, status := { begin := 0, end_ := 3, p := 3 }, t := 0, tlen := 3 }
    (by decide) (by decide)

/-! ## Options of the dictionary -/

/-- The loop over the options fails exactly when it meets a second
`split_tags` option or an option of another name. -/
theorem initLoop_error_iff (strcasecmp : String → String → Int) (atoi : String → Int)
    (opts : List DefElem) :
    ∀ v : InitVars, (∃ e, initLoop strcasecmp atoi opts v = Except.error e) ↔
      (2 ≤ (if v.split_tags_loaded then 1 else 0) +
          (opts.filter fun o => decide (strcasecmp "split_tags" o.defname = 0)).length ∨
        ∃ o ∈ opts, strcasecmp "split_tags" o.defname ≠ 0) := by
  induction opts with
  | nil =>
    intro v
    constructor
    · rintro ⟨e, he⟩
      simp [initLoop] at he
    · rintro (h | ⟨o, ho, _⟩)
      · exfalso
        simp only [List.filter_nil, List.length_nil, Nat.add_zero] at h
        split_ifs at h <;> omega
      · simp at ho
  | cons o rest ih =>
    intro v
    by_cases hk : strcasecmp "split_tags" o.defname = 0
    · have hfl : ((o :: rest).filter fun o =>
          decide (strcasecmp "split_tags" o.defname = 0)).length =
          (rest.filter fun o => decide (strcasecmp "split_tags" o.defname = 0)).length + 1 := by
        simp [List.filter_cons, hk]
      rw [hfl]
      by_cases hl : v.split_tags_loaded = true
      · constructor
        · intro _
          left
          simp only [hl, if_true]
          omega
        · intro _
          exact ⟨ConfigError.DuplicateOption, by simp [initLoop, hk, hl]⟩
      · have hstep : initLoop strcasecmp atoi (o :: rest) v =
            initLoop strcasecmp atoi rest
              { d := { v.d with split_tags := atoi o.arg }, split_tags_loaded := true } := by
          simp [initLoop, hk, hl]
        rw [hstep, ih]
        simp only [hl, if_true, if_false, Bool.false_eq_true]
        constructor
        · rintro (h | ⟨x, hx, hxk⟩)
          · exact Or.inl (by omega)
          · exact Or.inr ⟨x, List.mem_cons_of_mem _ hx, hxk⟩
        · rintro (h | ⟨x, hx, hxk⟩)
          · exact Or.inl (by omega)
          · rcases List.mem_cons.1 hx with rfl | hx1
            · exact absurd hk hxk
            · exact Or.inr ⟨x, hx1, hxk⟩
    · constructor
      · intro _
        exact Or.inr ⟨o, List.mem_cons_self _ _, hk⟩
      · intro _
        exact ⟨ConfigError.UnrecognizedOption o.defname, by simp [initLoop, hk]⟩

theorem tagdict_init_error (strcasecmp : String → String → Int) (atoi : String → Int)
    (opts : List DefElem) (e : ConfigError) :
    hoordu_tagdict_init strcasecmp atoi opts = Except.error e ↔
      initLoop strcasecmp atoi opts
        { d := { split_tags := 0 }, split_tags_loaded := false } = Except.error e := by
  unfold hoordu_tagdict_init
  cases hloop : initLoop strcasecmp atoi opts
      { d := { split_tags := 0 }, split_tags_loaded := false } with
  | error e1 => simp
  | ok v => simp only []; split_ifs <;> simp

/-- C11 (amended): for every option list, `hoordu_tagdict_init` fails if and
only if an option whose name `pg_strcasecmp` finds equal to `split_tags` (equal
without regard to letter case) is supplied more than once or an option of
another name is present; a list of two or more options, all named
`split_tags`, fails with `DuplicateOption`; a list that starts with an option
of another name (so a list of one such option) fails with `UnrecognizedOption`
of that name; and a call that fails produces no configuration. -/
theorem tagdict_init_fails_iff (strcasecmp : String → String → Int)
    (atoi : String → Int) (opts : List DefElem) :
    ((∃ e, hoordu_tagdict_init strcasecmp atoi opts = Except.error e) ↔
      (2 ≤ (opts.filter fun o => decide (strcasecmp "split_tags" o.defname = 0)).length ∨
        ∃ o ∈ opts, strcasecmp "split_tags" o.defname ≠ 0)) ∧
    ((∀ o ∈ opts, strcasecmp "split_tags" o.defname = 0) → 2 ≤ opts.length →
      hoordu_tagdict_init strcasecmp atoi opts =
        Except.error ConfigError.DuplicateOption) ∧
    (∀ o rest, opts = o :: rest → strcasecmp "split_tags" o.defname ≠ 0 →
      hoordu_tagdict_init strcasecmp atoi opts =
        Except.error (ConfigError.UnrecognizedOption o.defname)) ∧
    ((∃ e, hoordu_tagdict_init strcasecmp atoi opts = Except.error e) →
      ¬ ∃ d, hoordu_tagdict_init strcasecmp atoi opts = Except.ok d) := by
  refine ⟨?_, ?_, ?_, ?_⟩
  · have h := initLoop_error_iff strcasecmp atoi opts
      { d := { split_tags := 0 }, split_tags_loaded := false }
    simp only [Bool.false_eq_true, if_false, Nat.zero_add] at h
    rw [← h]
    constructor
    · rintro ⟨e, he⟩
      exact ⟨e, (tagdict_init_error strcasecmp atoi opts e).1 he⟩
    · rintro ⟨e, he⟩
      exact ⟨e, (tagdict_init_error strcasecmp atoi opts e).2 he⟩
  · intro hall hlen
    rw [tagdict_init_error]
    match opts, hall, hlen with
    | o1 :: o2 :: rest, hall, _ =>
      have h1 := hall o1 (by simp)
      have h2 := hall o2 (by simp)
      simp [initLoop, h1, h2]
  · intro o rest hopts hk
    rw [tagdict_init_error, hopts]
    simp [initLoop, hk]
  · rintro ⟨e, he⟩ ⟨d, hd⟩
    rw [he] at hd
    exact Except.noConfusion hd

theorem tagdict_init_fails_iff_witness :
    hoordu_tagdict_init asciiCasecmp asciiAtoi
        [{ defname := "split_tags", arg := "1" }, { defname := "split_tags", arg := "2" }] =
      Except.error ConfigError.DuplicateOption ∧
    hoordu_tagdict_init asciiCasecmp asciiAtoi [{ defname := "unknown", arg := "x" }] =
      Except.error (ConfigError.UnrecognizedOption "unknown") :=
  ⟨(tagdict_init_fails_iff asciiCasecmp asciiAtoi
      [{ defname := "split_tags", arg := "1" }, { defname := "split_tags", arg := "2" }]).2.1
      (by decide) (by decide),
   (tagdict_init_fails_iff asciiCasecmp asciiAtoi
      [{ defname := "unknown", arg := "x" }]).2.2.1
      { defname := "unknown", arg := "x" } [] rfl (by decide)⟩

/-- C11 as stated fails: the option list with the one option `SPLIT_TAGS = 1`
holds a key other than `split_tags` and no key twice, and
`hoordu_tagdict_init` does not fail on it: it returns the configuration with
`split_tags = 1`, because the names are compared with `pg_strcasecmp`. -/
theorem tagdict_init_accepts_upper_case :
    "SPLIT_TAGS" ≠ "split_tags" ∧
    hoordu_tagdict_init asciiCasecmp asciiAtoi [{ defname := "SPLIT_TAGS", arg := "1" }] =
      Except.ok { split_tags := 1 } ∧
    ¬ ∃ e, hoordu_tagdict_init asciiCasecmp asciiAtoi
        [{ defname := "SPLIT_TAGS", arg := "1" }] = Except.error e :=
  ⟨by decide, rfl, fun ⟨_, he⟩ => Except.noConfusion he⟩

/-- The token start the loop finds is the first character, from the cursor at
entry on, that is not a delimiter; it lies before `end`. -/
theorem whileLoop_first_content (mem : Int → Nat) (mblen : Int → Nat) (n : Nat) :
    ∀ v r : ScanVars, whileLoop mem mblen n v = some r → v.found = false →
      r.found = true →
      CharStart mblen v.status.p r.t ∧ r.t < v.status.end_ ∧ ¬ isDelim mem mblen r.t ∧
        ∀ q, CharStart mblen v.status.p q → q < r.t → isDelim mem mblen q := by
  induction n with
  | zero =>
    intro v r h hf hr
    by_cases hc : loopCond v = true
    · simp [whileLoop, hc] at h
    · have hc1 : loopCond v = false := by simpa using hc
      rw [whileLoop_done _ _ _ _ hc1] at h
      cases h
      rw [hf] at hr
      exact Bool.noConfusion hr
  | succ n ih =>
    intro v r h hf hr
    by_cases hc : loopCond v = true
    · have hlt := ((loopCond_iff v).1 hc).1
      rw [whileLoop_step _ _ _ _ hc] at h
      by_cases hd : isDelim mem mblen v.status.p
      · have hf1 : (loopBody mem mblen v).found = false := by
          have : ¬ (loopBody mem mblen v).found = true := by
            rw [loopBody_found_iff]; simp [hf, hd]
          simpa using this
        obtain ⟨h1, h2, h3, h4⟩ := ih _ _ h hf1 hr
        rw [loopBody_p] at h1 h4
        rw [loopBody_end] at h2
        refine ⟨CharStart.next _ _ h1, h2, h3, ?_⟩
        intro q hq hqt
        cases hq with
        | here => exact hd
        | next _ _ hq1 => exact h4 q hq1 hqt
      · have hf1 : (loopBody mem mblen v).found = true :=
          (loopBody_found_iff mem mblen v).2 (Or.inr hd)
        obtain ⟨_, ht⟩ := whileLoop_found_keep mem mblen n _ _ h hf1
        rw [loopBody_t] at ht
        simp only [hf, hd, not_false_eq_true, and_self, if_true] at ht
        rw [ht]
        refine ⟨CharStart.here _, hlt, hd, ?_⟩
        intro q hq hqt
        have := CharStart_le _ _ _ hq
        omega
    · have hc1 : loopCond v = false := by simpa using hc
      rw [whileLoop_done _ _ _ _ hc1] at h
      cases h
      rw [hf] at hr
      exact Bool.noConfusion hr

/-- A call that returns a token has found a token start. -/
theorem nexttoken_token (mem : Int → Nat) (mblen : Int → Nat) (st : TagParserStatus)
    (t0 tlen0 : Int) (r : NextToken)
    (h : hoordu_tagparser_nexttoken mem mblen st t0 tlen0 = some r) (hcode : r.code ≠ 0) :
    ∃ v, whileLoop mem mblen (st.end_ - st.p).toNat
        { status := st, t := t0, found := false, end_ := false, has_category := false }
          = some v ∧
      v.found = true ∧ r.status = v.status ∧ r.t = v.t ∧ r.tlen = v.status.p - v.t ∧
      (v.has_category = true → r.code = FULLTAG_TOKEN) ∧
      (v.has_category = false → r.code = TAG_TOKEN) := by
  obtain ⟨v, hv, hs, ht, hfound, hnot⟩ := nexttoken_some mem mblen st t0 tlen0 r h
  have hf : v.found = true := by
    by_contra hf
    exact hcode (hnot (by simpa using hf)).1
  obtain ⟨hlen, h2, h1⟩ := hfound hf
  exact ⟨v, hv, hf, hs, ht, hlen, h2, h1⟩

/-- C15: for every call of `hoordu_tagparser_nexttoken` that returns a token,
the span starts at the first character, from the cursor at entry on, that is
neither a single-byte space nor a single-byte colon: the span start is the
start of a character before `end`, that character is not a space and not a
colon, and every character before it from the cursor on is a single-byte space
or colon. -/
theorem tagparser_span_start (mem : Int → Nat) (mblen : Int → Nat)
    (st : TagParserStatus) (t0 tlen0 : Int) (r : NextToken)
    (h : hoordu_tagparser_nexttoken mem mblen st t0 tlen0 = some r)
    (hcode : r.code ≠ 0) :
    CharStart mblen st.p r.t ∧ r.t < st.end_ ∧ ¬ isDelim mem mblen r.t ∧
    ¬ isSpace mem mblen r.t ∧ ¬ isColon mem mblen r.t ∧
    ∀ q, CharStart mblen st.p q → q < r.t → isDelim mem mblen q := by
  obtain ⟨v, hv, hf, _, ht, _⟩ := nexttoken_token mem mblen st t0 tlen0 r h hcode
  obtain ⟨h1, h2, h3, h4⟩ := whileLoop_first_content mem mblen _ _ _ hv rfl hf
  rw [← ht] at h1 h2 h3 h4
  exact ⟨h1, h2, h3, fun hs => h3 ⟨hs.1, Or.inl hs.2⟩, fun hs => h3 ⟨hs.1, Or.inr hs.2⟩, h4⟩

theorem tagparser_span_start_witness :
    CharStart singleByte (hoordu_tagparser_start 0 4).p 2 ∧
    (2 : Int) < (hoordu_tagparser_start 0 4).end_ ∧
    ¬ isDelim (bufferAt 0 [32, 58, 97, 98]) singleByte 2 ∧
    ¬ isSpace (bufferAt 0 [32, 58, 97, 98]) singleByte 2 ∧
    ¬ isColon (bufferAt 0 [32, 58, 97, 98]) singleByte 2 ∧
    ∀ q, CharStart singleByte (hoordu_tagparser_start 0 4).p q → q < 2 →
      isDelim (bufferAt 0 [32, 58, 97, 98]) singleByte q :=
  tagparser_span_start (bufferAt 0 [32, 58, 97, 98]) singleByte
    (hoordu_tagparser_start 0 4) 0 0
    { code := 2, status := { begin := 0, end_ := 4, p := 4 }, t := 2, tlen := 2 }
    (by decide) (by decide)

/-! ## Successive tokens -/

/-- C17: for every call of `hoordu_tagparser_nexttoken` that returns a token,
the cursor after the call is `t + tlen`; so the token a later call on that
state returns starts at or after `t + tlen`, strictly after `t`: the spans of
successive tokens do not overlap and come in strictly increasing order. -/
theorem tagparser_span_ends_at_cursor (mem : Int → Nat) (mblen : Int → Nat)
    (st : TagParserStatus) (t0 tlen0 : Int) (r : NextToken)
    (h : hoordu_tagparser_nexttoken mem mblen st t0 tlen0 = some r)
    (hcode : r.code ≠ 0) :
    r.status.p = r.t + r.tlen ∧
    ∀ (t1 tlen1 : Int) (r2 : NextToken),
      hoordu_tagparser_nexttoken mem mblen r.status t1 tlen1 = some r2 → r2.code ≠ 0 →
      r.t + r.tlen ≤ r2.t ∧ r.t < r2.t := by
  obtain ⟨v, hv, hf, hs, ht, hlen, _⟩ := nexttoken_token mem mblen st t0 tlen0 r h hcode
  obtain ⟨_, hb2⟩ := whileLoop_t_bounds mem mblen _ _ _ hv rfl hf
  have hp : r.status.p = r.t + r.tlen := by rw [hs, ht, hlen]; omega
  refine ⟨hp, ?_⟩
  intro t1 tlen1 r2 h2 hcode2
  obtain ⟨v2, hv2, hf2, _, ht2, _⟩ :=
    nexttoken_token mem mblen r.status t1 tlen1 r2 h2 hcode2
  obtain ⟨hc1, _⟩ := whileLoop_t_bounds mem mblen _ _ _ hv2 rfl hf2
  simp only [] at hc1
  rw [← ht2] at hc1
  rw [← ht, ← hs] at hb2
  exact ⟨by omega, by omega⟩

theorem tagparser_span_ends_at_cursor_witness :
    (2 : Int) = 0 + 2 ∧
    ∀ (t1 tlen1 : Int) (r2 : NextToken),
      hoordu_tagparser_nexttoken (bufferAt 0 [97, 32, 98]) singleByte
        { begin := 0, end_ := 3, p := 2 } t1 tlen1 = some r2 → r2.code ≠ 0 →
      (0 : Int) + 2 ≤ r2.t ∧ (0 : Int) < r2.t :=
  tagparser_span_ends_at_cursor (bufferAt 0 [97, 32, 98]) singleByte
    (hoordu_tagparser_start 0 3) 0 0
    { code := 1, status := { begin := 0, end_ := 3, p := 2 }, t := 0, tlen := 2 }
    (by decide) (by decide)

/-! ## After the end of the stream -/

/-- A run that ends without a token start ends at or after `end`, at `end`
when it started at or before it, and has not written `*t`. -/
theorem whileLoop_not_found_end (mem : Int → Nat) (mblen : Int → Nat) (n : Nat) :
    ∀ v r : ScanVars, whileLoop mem mblen n v = some r → r.found = false →
      v.end_ = false →
      v.status.end_ ≤ r.status.p ∧ (v.status.p ≤ v.status.end_ → r.status.p = v.status.end_) ∧
        r.t = v.t := by
  have base : ∀ v : ScanVars, loopCond v = false → v.end_ = false →
      v.status.end_ ≤ v.status.p ∧ (v.status.p ≤ v.status.end_ → v.status.p = v.status.end_) ∧
        v.t = v.t := by
    intro v hc he
    have hn : ¬ loopCond v = true := by simp [hc]
    rw [loopCond_iff] at hn
    have : v.status.end_ ≤ v.status.p := by
      by_contra hlt
      exact hn ⟨by omega, he⟩
    exact ⟨this, fun _ => by omega, rfl⟩
  induction n with
  | zero =>
    intro v r h _ he
    by_cases hc : loopCond v = true
    · simp [whileLoop, hc] at h
    · have hc1 : loopCond v = false := by simpa using hc
      rw [whileLoop_done _ _ _ _ hc1] at h
      cases h
      exact base v hc1 he
  | succ n ih =>
    intro v r h hr he
    by_cases hc : loopCond v = true
    · have hlt := ((loopCond_iff v).1 hc).1
      rw [whileLoop_step _ _ _ _ hc] at h
      have hf1 : (loopBody mem mblen v).found = false := by
        by_contra hf1
        have := (whileLoop_found_keep mem mblen n _ _ h (by simpa using hf1)).1
        rw [hr] at this
        exact Bool.noConfusion this
      have hnot : ¬ (v.found = true ∨ ¬ isDelim mem mblen v.status.p) := by
        rw [← loopBody_found_iff]; simp [hf1]
      have hvf : v.found = false := by
        by_contra hvf; exact hnot (Or.inl (by simpa using hvf))
      have hd : isDelim mem mblen v.status.p := by
        by_contra hd; exact hnot (Or.inr hd)
      have he1 : (loopBody mem mblen v).end_ = false := by
        have : ¬ (loopBody mem mblen v).end_ = true := by
          rw [loopBody_end_iff]; simp [he, hvf]
        simpa using this
      obtain ⟨h1, h2, h3⟩ := ih _ _ h hr he1
      rw [loopBody_end] at h1 h2
      rw [loopBody_p, hd.1] at h2
      rw [loopBody_t] at h3
      simp only [hd, not_true_eq_false, and_false, if_false] at h3
      exact ⟨h1, fun _ => h2 (by omega), h3⟩
    · have hc1 : loopCond v = false := by simpa using hc
      rw [whileLoop_done _ _ _ _ hc1] at h
      cases h
      exact base v hc1 he

/-- From a cursor at or after `end` a call returns 0 at once and changes
nothing. -/
theorem nexttoken_at_end (mem : Int → Nat) (mblen : Int → Nat) (st : TagParserStatus)
    (t0 tlen0 : Int) (h : st.end_ ≤ st.p) :
    hoordu_tagparser_nexttoken mem mblen st t0 tlen0 =
      some { code := 0, status := st, t := t0, tlen := tlen0 } := by
  let w : ScanVars :=
    { status := st, t := t0, found := false, end_ := false, has_category := false }
  have hc : loopCond w = false := by
    have hn : ¬ loopCond w = true := by
      rw [loopCond_iff]
      intro hlt
      have hp : st.p < st.end_ := hlt.1
      omega
    simpa using hn
  have hw : whileLoop mem mblen (st.end_ - st.p).toNat w = some w :=
    whileLoop_done _ _ _ _ hc
  unfold hoordu_tagparser_nexttoken
  show Option.map _ (whileLoop mem mblen (st.end_ - st.p).toNat w) = _
  rw [hw]
  rfl

/-- C18: when a call of `hoordu_tagparser_nexttoken` has returned 0, the cursor
is at or after `end` (at `end` when the call started at or before it), `begin`
and `end` and the out-parameters are as they were, and every later call on the
state it left returns 0 again and leaves the state and the out-parameters
unchanged. -/
theorem tagparser_end_of_stream_stays (mem : Int → Nat) (mblen : Int → Nat)
    (st : TagParserStatus) (t0 tlen0 : Int) (r : NextToken)
    (h : hoordu_tagparser_nexttoken mem mblen st t0 tlen0 = some r)
    (hcode : r.code = 0) :
    r.status.end_ ≤ r.status.p ∧ (st.p ≤ st.end_ → r.status.p = r.status.end_) ∧
    r.status.begin = st.begin ∧ r.status.end_ = st.end_ ∧ r.t = t0 ∧ r.tlen = tlen0 ∧
    ∀ t1 tlen1 : Int,
      hoordu_tagparser_nexttoken mem mblen r.status t1 tlen1 =
        some { code := 0, status := r.status, t := t1, tlen := tlen1 } := by
  obtain ⟨v, hv, hs, ht, hfound, hnot⟩ := nexttoken_some mem mblen st t0 tlen0 r h
  have hf : v.found = false := by
    by_contra hf
    have hf1 : v.found = true := by simpa using hf
    obtain ⟨_, h2, h1⟩ := hfound hf1
    by_cases hcat : v.has_category = true
    · rw [h2 hcat] at hcode; exact absurd hcode (by decide)
    · rw [h1 (by simpa using hcat)] at hcode; exact absurd hcode (by decide)
  obtain ⟨h1, h2, h3⟩ := whileLoop_not_found_end mem mblen _ _ _ hv hf rfl
  obtain ⟨hb, he, _⟩ := whileLoop_frame mem mblen _ _ _ hv
  simp only [] at h1 h2 h3 hb he
  have hend : r.status.end_ ≤ r.status.p := by rw [hs, he]; exact h1
  refine ⟨hend, ?_, by rw [hs, hb], by rw [hs, he], by rw [ht, h3], (hnot hf).2, ?_⟩
  · intro hle
    rw [hs, he]
    exact h2 hle
  · intro t1 tlen1
    exact nexttoken_at_end mem mblen r.status t1 tlen1 hend

theorem tagparser_end_of_stream_stays_witness :
    (3 : Int) ≤ 3 ∧ ((hoordu_tagparser_start 0 3).p ≤ (hoordu_tagparser_start 0 3).end_ →
      (3 : Int) = 3) ∧
    (0 : Int) = (hoordu_tagparser_start 0 3).begin ∧
    (3 : Int) = (hoordu_tagparser_start 0 3).end_ ∧ (0 : Int) = 0 ∧ (0 : Int) = 0 ∧
    ∀ t1 tlen1 : Int,
      hoordu_tagparser_nexttoken (bufferAt 0 [32, 58, 32]) singleByte
        { begin := 0, end_ := 3, p := 3 } t1 tlen1 =
        some { code := 0, status := { begin := 0, end_ := 3, p := 3 }, t := t1,
               tlen := tlen1 } :=
  tagparser_end_of_stream_stays (bufferAt 0 [32, 58, 32]) singleByte
    (hoordu_tagparser_start 0 3) 0 0
    { code := 0, status := { begin := 0, end_ := 3, p := 3 }, t := 0, tlen := 0 }
    (by decide) rfl

/-! ## Termination -/

/-- With character lengths of at least 1 the loop terminates. -/
theorem whileLoop_total (mem : Int → Nat) (mblen : Int → Nat) (hpos : ∀ q, 1 ≤ mblen q)
    (v : ScanVars) :
    ∃ r, whileLoop mem mblen (v.status.end_ - v.status.p).toNat v = some r := by
  cases h : whileLoop mem mblen (v.status.end_ - v.status.p).toNat v with
  | some r => exact ⟨r, rfl⟩
  | none =>
    obtain ⟨q, _, _, h0⟩ := whileLoop_none mem mblen _ v (le_refl _) h
    have := hpos q
    omega

/-- With character lengths of at least 1 every call returns, and a call that
returns a token moves the cursor forward. -/
theorem nexttoken_total (mem : Int → Nat) (mblen : Int → Nat) (hpos : ∀ q, 1 ≤ mblen q)
    (st : TagParserStatus) (t0 tlen0 : Int) :
    ∃ r, hoordu_tagparser_nexttoken mem mblen st t0 tlen0 = some r ∧
      r.status.end_ = st.end_ ∧ (r.code ≠ 0 → st.p < r.status.p) := by
  obtain ⟨v, hv⟩ := whileLoop_total mem mblen hpos
    { status := st, t := t0, found := false, end_ := false, has_category := false }
  obtain ⟨r, hr, hs, _, _, _⟩ := nexttoken_of_loop mem mblen st t0 tlen0 _ v hv
  refine ⟨r, hr, ?_, ?_⟩
  · rw [hs]; exact (whileLoop_frame mem mblen _ _ _ hv).2.1
  · intro hcode
    obtain ⟨v2, hv2, hf, hs2, _⟩ := nexttoken_token mem mblen st t0 tlen0 r hr hcode
    obtain ⟨h1, h2⟩ := whileLoop_t_bounds mem mblen _ _ _ hv2 rfl hf
    simp only [] at h1
    rw [hs2]
    omega

/-- With character lengths of at least 1, a scan with `k` bytes left yields at
most `k` tokens and reaches the end of the stream within `k + 1` calls. -/
theorem scanTokens_bound (mem : Int → Nat) (mblen : Int → Nat) (hpos : ∀ q, 1 ≤ mblen q)
    (k : Nat) :
    ∀ (st : TagParserStatus) (t0 tlen0 : Int), (st.end_ - st.p).toNat ≤ k →
      ∃ toks, scanTokens mem mblen (k + 1) st t0 tlen0 = some toks ∧ toks.length ≤ k := by
  induction k with
  | zero =>
    intro st t0 tlen0 hk
    refine ⟨[], ?_, le_refl _⟩
    simp [scanTokens, nexttoken_at_end mem mblen st t0 tlen0 (by omega)]
  | succ k ih =>
    intro st t0 tlen0 hk
    obtain ⟨r, hr, he, hadv⟩ := nexttoken_total mem mblen hpos st t0 tlen0
    by_cases hcode : r.code = 0
    · refine ⟨[], ?_, Nat.zero_le _⟩
      simp [scanTokens, hr, hcode]
    · have hlt := hadv hcode
      obtain ⟨rest, hrest, hlen⟩ := ih r.status r.t r.tlen (by rw [he]; omega)
      refine ⟨(r.code, spanText mem r.t r.tlen) :: rest, ?_, by simpa using hlen⟩
      rw [scanTokens]
      simp only [hr, hcode, if_false, hrest, Option.map_some']

/-- C16: with a character-length function that gives at least 1 at every
position, every call of `hoordu_tagparser_nexttoken` returns, a call that
returns a token moves the cursor strictly forward, and on a buffer of `n` bytes
the pull loop reaches the end of the stream after at most `n` tokens. -/
theorem tagparser_terminates (mem : Int → Nat) (mblen : Int → Nat)
    (hpos : ∀ q, 1 ≤ mblen q) :
    (∀ (st : TagParserStatus) (t0 tlen0 : Int),
      ∃ r, hoordu_tagparser_nexttoken mem mblen st t0 tlen0 = some r ∧
        (r.code ≠ 0 → st.p < r.status.p)) ∧
    (∀ (begin : Int) (n : Nat) (t0 tlen0 : Int),
      ∃ toks, scanTokens mem mblen (n + 1) (hoordu_tagparser_start begin n) t0 tlen0 =
          some toks ∧ toks.length ≤ n) := by
  constructor
  · intro st t0 tlen0
    obtain ⟨r, hr, _, hadv⟩ := nexttoken_total mem mblen hpos st t0 tlen0
    exact ⟨r, hr, hadv⟩
  · intro begin n t0 tlen0
    apply scanTokens_bound mem mblen hpos
    simp [hoordu_tagparser_start]

theorem tagparser_terminates_witness :
    (∀ (st : TagParserStatus) (t0 tlen0 : Int),
      ∃ r, hoordu_tagparser_nexttoken (bufferAt 0 [97, 32, 98]) singleByte st t0 tlen0
          = some r ∧ (r.code ≠ 0 → st.p < r.status.p)) ∧
    (∀ (begin : Int) (n : Nat) (t0 tlen0 : Int),
      ∃ toks, scanTokens (bufferAt 0 [97, 32, 98]) singleByte (n + 1)
          (hoordu_tagparser_start begin n) t0 tlen0 = some toks ∧ toks.length ≤ n) :=
  tagparser_terminates (bufferAt 0 [97, 32, 98]) singleByte (fun _ => le_refl 1)

/-! ## Multi-byte characters -/

/-- C13: a character of length greater than 1 is ordinary token content
whatever its bytes are: the pass of the loop over it does not set `end`, does
not set `has_category`, starts the span at it when no token has started and
keeps the span start otherwise, and moves the cursor by its length; so on a
buffer made only of multi-byte characters (one or more, one after the other
from `begin` to `end`) the first call returns a `TAG_TOKEN` token whose span is
the whole buffer, the next call returns 0, and the pull loop yields that one
token. -/
theorem tagparser_multibyte (mem : Int → Nat) (mblen : Int → Nat) :
    (∀ v : ScanVars, 1 < mblen v.status.p →
      (loopBody mem mblen v).end_ = v.end_ ∧
      (loopBody mem mblen v).has_category = v.has_category ∧
      (loopBody mem mblen v).found = true ∧
      (loopBody mem mblen v).t = (if v.found then v.t else v.status.p) ∧
      (loopBody mem mblen v).status.p = v.status.p + mblen v.status.p) ∧
    (∀ (begin len t0 tlen0 : Int), 0 < len →
      CharRun mblen (fun q => 1 < mblen q) begin (begin + len) →
      ∃ r, hoordu_tagparser_nexttoken mem mblen (hoordu_tagparser_start begin len) t0 tlen0
          = some r ∧
        r.code = TAG_TOKEN ∧ r.t = begin ∧ r.tlen = len ∧
        (∃ r1, hoordu_tagparser_nexttoken mem mblen r.status r.t r.tlen = some r1 ∧
          r1.code = 0) ∧
        ∀ n, scanTokens mem mblen (n + 2) (hoordu_tagparser_start begin len) t0 tlen0 =
          some [(TAG_TOKEN, spanText mem begin len)]) := by
  have hnd : ∀ q, 1 < mblen q → ¬ isDelim mem mblen q := by
    intro q hq hd
    have := hd.1
    omega
  constructor
  · intro v hv
    rw [loopBody_content _ _ _ (hnd _ hv)]
    exact ⟨rfl, rfl, rfl, rfl, rfl⟩
  · intro begin len t0 tlen0 hlen hrun
    have hrun1 := CharRun_mono mblen _ (fun q => ¬ isDelim mem mblen q) _ _ hnd hrun
    obtain ⟨hcont, _, hrest⟩ := CharRun_head _ _ _ _ hrun1 (by omega)
    let w : ScanVars :=
      { status := hoordu_tagparser_start begin len, t := t0, found := false,
        end_ := false, has_category := false }
    have hcw : loopCond w = true := by
      rw [loopCond_iff]
      exact ⟨show begin < begin + len by omega, rfl⟩
    obtain ⟨n, hn⟩ := whileLoop_content mem mblen _ _ hrest (loopBody mem mblen w)
      (by rw [loopBody_p]; rfl) (by rw [loopBody_end]; rfl)
      ((loopBody_found_iff mem mblen w).2 (Or.inr hcont))
      (by rw [loopBody_content _ _ _ hcont])
    rw [loopBody_content _ _ _ hcont] at hn
    have hk : whileLoop mem mblen (n + 1) w = some
        { status := { begin := begin, end_ := begin + len, p := begin + len }, t := begin,
          found := true, end_ := false, has_category := false } := by
      rw [whileLoop_step _ _ _ _ hcw, loopBody_content _ _ _ hcont]
      exact hn
    obtain ⟨r, hr, hs, ht, hfound, _⟩ := nexttoken_of_loop mem mblen _ t0 tlen0 _ _ hk
    obtain ⟨htl, _, hcode⟩ := hfound rfl
    have hcode1 := hcode rfl
    simp only [] at hs ht htl
    have htl1 : r.tlen = len := by rw [htl]; omega
    have hr1 := nexttoken_at_end mem mblen r.status r.t r.tlen (by rw [hs])
    refine ⟨r, hr, hcode1, ht, htl1, ⟨_, hr1, rfl⟩, ?_⟩
    intro j
    have hne : r.code ≠ 0 := by rw [hcode1]; decide
    simp only [scanTokens, hr, hr1, hne, if_true, if_false, Option.map_some']
    rw [hcode1, ht, htl1]

theorem tagparser_multibyte_witness :
    ∃ r, hoordu_tagparser_nexttoken (bufferAt 0 [195, 58, 227, 32, 58]) (fun q => if q < 2 then 2 else 3)
        (hoordu_tagparser_start 0 5) 0 0 = some r ∧
      r.code = TAG_TOKEN ∧ r.t = 0 ∧ r.tlen = 5 ∧
      (∃ r1, hoordu_tagparser_nexttoken (bufferAt 0 [195, 58, 227, 32, 58])
          (fun q => if q < 2 then 2 else 3) r.status r.t r.tlen = some r1 ∧ r1.code = 0) ∧
      ∀ n, scanTokens (bufferAt 0 [195, 58, 227, 32, 58]) (fun q => if q < 2 then 2 else 3)
          (n + 2) (hoordu_tagparser_start 0 5) 0 0 =
        some [(TAG_TOKEN, spanText (bufferAt 0 [195, 58, 227, 32, 58]) 0 5)] :=
  (tagparser_multibyte (bufferAt 0 [195, 58, 227, 32, 58])
      (fun q => if q < 2 then 2 else 3)).2 0 5 0 0 (by decide)
    (CharRun.cons 0 5 (by decide) (by decide)
      (CharRun.cons 2 5 (by decide) (by decide) (CharRun.nil 5)))

/-! ## The dictionary on its own output -/

theorem asciiLower_idem (s : List Nat) : asciiLower (asciiLower s) = asciiLower s := by
  unfold asciiLower
  rw [List.map_map]
  apply List.map_congr_left
  intro b _
  simp only [Function.comp]
  split_ifs <;> omega

/-- C20: for every configuration and token text `t`, with a lowercasing that
leaves a lowercased text as it is and character lengths of at least 1,
`hoordu_tagdict_lexize` returns a result whose first lexeme is
`(1, lowered t)`, and `hoordu_tagdict_lexize` applied to the text of that
lexeme returns the same result. -/
theorem lexize_idempotent (lowerstr : List Nat → List Nat) (mblen : List Nat → Nat)
    (hidem : ∀ s, lowerstr (lowerstr s) = lowerstr s) (hpos : ∀ s, 1 ≤ mblen s)
    (d : TagDict) (t : List Nat) :
    ∃ res txt, hoordu_tagdict_lexize lowerstr mblen d t = some res ∧
      (lexemesOf res).head? = some (1, txt) ∧ txt = lowerstr t ∧
      hoordu_tagdict_lexize lowerstr mblen d txt = some res := by
  obtain ⟨m, hm⟩ := pg_mbstrlen_total mblen hpos _ (lowerstr t) (le_refl _)
  obtain ⟨res, hres, hlex⟩ := lexize_lexemes lowerstr mblen d t m hm
  refine ⟨res, lowerstr t, hres, ?_, rfl, ?_⟩
  · rw [hlex]; split_ifs <;> rfl
  · rw [← hres]
    unfold hoordu_tagdict_lexize
    simp only [hidem]

theorem lexize_idempotent_witness :
    ∃ res txt, hoordu_tagdict_lexize asciiLower oneByte { split_tags := 1 }
        [67, 104, 97, 114, 97, 99, 116, 101, 114, 58, 71, 111, 107, 117] = some res ∧
      (lexemesOf res).head? = some (1, txt) ∧
      txt = asciiLower [67, 104, 97, 114, 97, 99, 116, 101, 114, 58, 71, 111, 107, 117] ∧
      hoordu_tagdict_lexize asciiLower oneByte { split_tags := 1 } txt = some res :=
  lexize_idempotent asciiLower oneByte asciiLower_idem (fun _ => le_refl 1)
    { split_tags := 1 } [67, 104, 97, 114, 97, 99, 116, 101, 114, 58, 71, 111, 107, 117]

/-! ## Tokens without a colon -/

/-- With `split_tags = 1` the output is the one lexeme of variant number 1
exactly when the lowercased text has no single-byte colon. -/
theorem lexize_one_lexeme_iff (lowerstr : List Nat → List Nat) (mblen : List Nat → Nat)
    (hpos : ∀ s, 1 ≤ mblen s) (t : List Nat) :
    ∃ res, hoordu_tagdict_lexize lowerstr mblen { split_tags := 1 } t = some res ∧
      (lexemesOf res = [(1, lowerstr t)] ↔ ¬ HasColon mblen (lowerstr t)) := by
  obtain ⟨m, hm⟩ := pg_mbstrlen_total mblen hpos _ (lowerstr t) (le_refl _)
  obtain ⟨res, hres, hlex⟩ := lexize_lexemes lowerstr mblen { split_tags := 1 } t m hm
  refine ⟨res, hres, ?_⟩
  rw [hlex]
  by_cases hfound : (splitLoop mblen m (lowerstr t)).1 = true
  · have hcol : HasColon mblen (lowerstr t) := by
      obtain ⟨pre, hs, hpre, hc⟩ := splitLoop_found mblen hpos m (lowerstr t)
        (splitLoop mblen m (lowerstr t)).2 (by rw [← hfound])
      exact ⟨pre, _, hs, CharPrefix_mono mblen _ _ (fun _ _ => trivial) _ _ hpre, hc⟩
    simp [hfound, hcol]
  · have hcol : ¬ HasColon mblen (lowerstr t) := by
      rintro ⟨pre, rest, hs, hpre, hc⟩
      obtain ⟨pre1, rest1, heq, hpre1, hc1⟩ :=
        charPrefix_first_colon mblen pre _ hpre rest rfl hc
      rw [← hs] at heq
      rw [heq] at hm hfound
      rw [splitLoop_first_colon mblen pre1 _ rest1 hpre1 rfl hc1 _ m hm] at hfound
      exact hfound rfl
    simp [hfound, hcol]

/-- In a single-byte encoding a string has a single-byte colon exactly when it
has the byte of the colon. -/
theorem hasColon_oneByte_iff (s : List Nat) : HasColon oneByte s ↔ COLON ∈ s := by
  constructor
  · rintro ⟨pre, rest, hs, _, _⟩
    rw [hs]
    simp
  · intro h
    obtain ⟨pre, rest, hs⟩ := List.append_of_mem h
    exact ⟨pre, rest, hs, charPrefix_oneByte _ _ pre (fun _ _ => trivial), rfl⟩

theorem asciiLower_hasColon (s : List Nat) :
    HasColon oneByte (asciiLower s) ↔ HasColon oneByte s := by
  rw [hasColon_oneByte_iff, hasColon_oneByte_iff]
  unfold asciiLower COLON
  simp only [List.mem_map]
  constructor
  · rintro ⟨b, hb, hbe⟩
    split_ifs at hbe with hc
    · omega
    · rw [← hbe]; exact hb
  · intro h
    exact ⟨58, h, by simp⟩

theorem flatMap_single {α β : Type} (f : α → β) (l : List α) :
    (l.flatMap fun a => List.singleton (f a)) = l.map f := by
  induction l with
  | nil => rfl
  | cons x l ih =>
    rw [List.flatMap_cons, ih]
    rfl

theorem spanText_eq (mem : Int → Nat) (a n : Int) :
    spanText mem a n = (List.range n.toNat).map (fun i : Nat => mem (a + (i : Int))) := by
  unfold spanText
  simp only [bind, pure, List.flatMap]
  show List.map _ (List.flatMap _ _) = _
  rw [flatMap_single, List.map_map]
  rfl

theorem spanText_length (mem : Int → Nat) (a n : Int) :
    (spanText mem a n).length = n.toNat := by
  simp [spanText_eq]

theorem spanText_cons (mem : Int → Nat) (a n : Int) (h : 0 < n) :
    spanText mem a n = mem a :: spanText mem (a + 1) (n - 1) := by
  obtain ⟨k, hk⟩ : ∃ k : Nat, n.toNat = k + 1 := ⟨n.toNat - 1, by omega⟩
  have hk1 : (n - 1).toNat = k := by omega
  rw [spanText_eq, spanText_eq, hk, hk1, List.range_succ_eq_map, List.map_cons, List.map_map]
  simp only [Nat.cast_zero, add_zero, List.cons.injEq, true_and]
  apply List.map_congr_left
  intro i _
  simp only [Function.comp, Nat.cast_succ]
  congr 1
  ring

theorem spanText_nil (mem : Int → Nat) (a n : Int) (h : n ≤ 0) : spanText mem a n = [] := by
  have : n.toNat = 0 := by omega
  simp [spanText_eq, this]

theorem spanText_drop (mem : Int → Nat) (k : Nat) :
    ∀ a n : Int, (spanText mem a n).drop k = spanText mem (a + k) (n - k) := by
  induction k with
  | zero => intro a n; simp
  | succ k ih =>
    intro a n
    by_cases h : 0 < n
    · rw [spanText_cons mem a n h, List.drop_succ_cons, ih]
      congr 1
      · push_cast; ring
      · push_cast; ring
    · rw [spanText_nil mem a n (by omega), spanText_nil mem _ _ (by push_cast; omega)]
      simp

theorem CharStart_trans (mblen : Int → Nat) (a b c : Int) (h1 : CharStart mblen a b)
    (h2 : CharStart mblen b c) : CharStart mblen a c := by
  induction h1 with
  | here a => exact h2
  | next a b _ ih => exact CharStart.next _ _ (ih h2)

/-- Two character starts reached from the same address lie on one chain. -/
theorem CharStart_chain (mblen : Int → Nat) (a t : Int) (h1 : CharStart mblen a t) :
    ∀ q, CharStart mblen a q → t ≤ q → CharStart mblen t q := by
  induction h1 with
  | here a => intro q hq _; exact hq
  | next a t h ih =>
    intro q hq hle
    have hat := CharStart_le _ _ _ h
    cases hq with
    | here =>
      have : t = a := by omega
      rw [this]
      exact CharStart.here _
    | next _ _ hq1 => exact ih q hq1 hle

/-- A single-byte colon of the text of `[a, e)`, read with the character
lengths of the dictionary, is a single-byte colon of the buffer, when both
character lengths agree on the characters of `[a, e)`. -/
theorem hasColon_span_buffer (mem : Int → Nat) (mblen : Int → Nat)
    (mblenL : List Nat → Nat) (e : Int) (pre suf : List Nat)
    (hpre : CharPrefix mblenL (fun _ => True) pre suf) :
    ∀ (a : Int) (rest : List Nat), suf = COLON :: rest → mblenL (COLON :: rest) = 1 →
      spanText mem a (e - a) = pre ++ suf →
      (∀ q, CharStart mblen a q → q < e → mblenL (spanText mem q (e - q)) = mblen q) →
      ∃ q, CharStart mblen a q ∧ q < e ∧ isColon mem mblen q := by
  induction hpre with
  | nil suf =>
    intro a rest hsuf hc htext hL
    have hlt : a < e := by
      by_contra hge
      rw [spanText_nil mem a _ (by omega), hsuf] at htext
      simp at htext
    have hL1 := hL a (CharStart.here _) hlt
    rw [htext, List.nil_append, hsuf, hc] at hL1
    rw [spanText_cons mem a _ (by omega), List.nil_append, hsuf] at htext
    exact ⟨a, CharStart.here _, hlt, hL1.symm, (List.cons.inj htext).1⟩
  | cons c pre suf hne hlen _ _ ih =>
    intro a rest hsuf hc htext hL
    have hlt : a < e := by
      by_contra hge
      rw [spanText_nil mem a _ (by omega)] at htext
      have := congrArg List.length htext
      simp only [List.length_nil, List.length_append] at this
      have := List.length_pos.2 hne
      omega
    have hL1 := hL a (CharStart.here _) hlt
    rw [htext, List.append_assoc, hlen] at hL1
    have hdrop : spanText mem (a + mblen a) (e - (a + mblen a)) = pre ++ suf := by
      have := spanText_drop mem c.length a (e - a)
      rw [htext, List.append_assoc, List.drop_left, hL1] at this
      rw [this]
      congr 1
      omega
    obtain ⟨q, hq, hqe, hcol⟩ := ih (a + mblen a) rest hsuf hc hdrop
      (fun q hq hqe => hL q (CharStart.next _ _ hq) hqe)
    exact ⟨q, CharStart.next _ _ hq, hqe, hcol⟩

/-- A single-byte colon of the buffer in `[a, e)` is a single-byte colon of
the text of `[a, e)`, read with the character lengths of the dictionary, when
both character lengths agree on the characters of `[a, e)`. -/
theorem hasColon_buffer_span (mem : Int → Nat) (mblen : Int → Nat)
    (mblenL : List Nat → Nat) (hpos : ∀ s, 1 ≤ mblenL s) (e a q : Int)
    (hq : CharStart mblen a q) :
    q < e → isColon mem mblen q →
      (∀ x, CharStart mblen a x → x < e → mblenL (spanText mem x (e - x)) = mblen x) →
      HasColon mblenL (spanText mem a (e - a)) := by
  induction hq with
  | here a =>
    intro hlt hcol hL
    have hL1 := hL a (CharStart.here _) hlt
    have htext := spanText_cons mem a (e - a) (by omega)
    rw [hcol.2] at htext
    refine ⟨[], _, by rw [htext]; rfl, CharPrefix.nil _, ?_⟩
    rw [← htext, hL1]
    exact hcol.1
  | next a q h ih =>
    intro hlt hcol hL
    have hle := CharStart_le _ _ _ h
    have hae : a < e := by omega
    have hL1 := hL a (CharStart.here _) hae
    have hp1 : 1 ≤ mblen a := by rw [← hL1]; exact hpos _
    obtain ⟨pre, rest, hs, hpre, hc⟩ := ih hlt hcol
      (fun x hx hxe => hL x (CharStart.next _ _ hx) hxe)
    have hdrop : (spanText mem a (e - a)).drop (mblen a) = pre ++ COLON :: rest := by
      rw [spanText_drop, ← hs]
      congr 1
      omega
    have hsplit : spanText mem a (e - a) =
        (spanText mem a (e - a)).take (mblen a) ++ (pre ++ COLON :: rest) := by
      rw [← hdrop, List.take_append_drop]
    have hlen : ((spanText mem a (e - a)).take (mblen a)).length = mblen a := by
      rw [List.length_take, spanText_length]
      omega
    refine ⟨(spanText mem a (e - a)).take (mblen a) ++ pre, rest,
      by rw [List.append_assoc]; exact hsplit, ?_, hc⟩
    refine CharPrefix.cons _ _ _ ?_ ?_ trivial hpre
    · intro hnil
      rw [hnil] at hlen
      simp at hlen
      omega
    · rw [← hsplit, hlen]
      exact hL1

/-- C19: take a call of `hoordu_tagparser_nexttoken` that returns a token, a
dictionary whose character lengths are at least 1 and agree with those of the
buffer on the characters of the span, and a lowercasing that neither adds nor
removes single-byte colons.  When the token is `TAG_TOKEN`, its span text has
no single-byte colon and `hoordu_tagdict_lexize` with `split_tags = 1` returns
for it the one lexeme of variant number 1.  When the token is `FULLTAG_TOKEN`,
`hoordu_tagdict_lexize` returns that one lexeme only exactly when every
single-byte colon the call consumed lies before the span start. -/
theorem tagparser_plain_one_lexeme (mem : Int → Nat) (mblen : Int → Nat)
    (lowerstr : List Nat → List Nat) (mblenL : List Nat → Nat)
    (hpos : ∀ s, 1 ≤ mblenL s)
    (hlow : ∀ s, HasColon mblenL (lowerstr s) ↔ HasColon mblenL s)
    (st : TagParserStatus) (t0 tlen0 : Int) (r : NextToken)
    (h : hoordu_tagparser_nexttoken mem mblen st t0 tlen0 = some r) (hcode : r.code ≠ 0)
    (hL : ∀ q, CharStart mblen r.t q → q < r.t + r.tlen →
      mblenL (spanText mem q (r.t + r.tlen - q)) = mblen q) :
    (r.code = TAG_TOKEN →
      ¬ HasColon mblenL (spanText mem r.t r.tlen) ∧
      ∃ res, hoordu_tagdict_lexize lowerstr mblenL { split_tags := 1 }
          (spanText mem r.t r.tlen) = some res ∧
        lexemesOf res = [(1, lowerstr (spanText mem r.t r.tlen))]) ∧
    (r.code = FULLTAG_TOKEN →
      ((∃ res, hoordu_tagdict_lexize lowerstr mblenL { split_tags := 1 }
          (spanText mem r.t r.tlen) = some res ∧
        lexemesOf res = [(1, lowerstr (spanText mem r.t r.tlen))]) ↔
      ∀ q, CharStart mblen st.p q → q < r.status.p → isColon mem mblen q → q < r.t)) := by
  obtain ⟨v, hv, hf, hs, ht, hlen, h2, h1⟩ := nexttoken_token mem mblen st t0 tlen0 r h hcode
  obtain ⟨hstart, _, _, _⟩ := whileLoop_first_content mem mblen _ _ _ hv rfl hf
  have hcat := whileLoop_has_category mem mblen _ _ _ hv
  simp only [Bool.false_eq_true, false_or] at hcat hstart
  rw [← hs] at hcat
  rw [← ht] at hstart
  have hp : r.status.p = r.t + r.tlen := by rw [hs, ht, hlen]; omega
  have htext : spanText mem r.t r.tlen = spanText mem r.t (r.t + r.tlen - r.t) := by
    congr 1
    omega
  -- the colons of the span text are the colons of the buffer inside the span
  have key : HasColon mblenL (spanText mem r.t r.tlen) ↔
      ∃ q, CharStart mblen r.t q ∧ q < r.t + r.tlen ∧ isColon mem mblen q := by
    constructor
    · rintro ⟨pre, rest, hpre_eq, hpre, hc⟩
      rw [htext] at hpre_eq
      exact hasColon_span_buffer mem mblen mblenL _ pre _ hpre r.t rest rfl hc hpre_eq hL
    · rintro ⟨q, hq, hqe, hcol⟩
      rw [htext]
      exact hasColon_buffer_span mem mblen mblenL hpos _ r.t q hq hqe hcol hL
  obtain ⟨res, hres, hone⟩ :=
    lexize_one_lexeme_iff lowerstr mblenL hpos (spanText mem r.t r.tlen)
  rw [hlow] at hone
  constructor
  · intro htag
    have hnc : ¬ HasColon mblenL (spanText mem r.t r.tlen) := by
      rw [key]
      rintro ⟨q, hq, hqe, hcol⟩
      have hcv : v.has_category = true :=
        hcat.2 ⟨q, CharStart_trans _ _ _ _ hstart hq, by rw [hp]; exact hqe, hcol⟩
      rw [h2 hcv] at htag
      exact absurd htag (by decide)
    exact ⟨hnc, res, hres, hone.2 hnc⟩
  · intro _
    have hex : (∃ res1, hoordu_tagdict_lexize lowerstr mblenL { split_tags := 1 }
          (spanText mem r.t r.tlen) = some res1 ∧
        lexemesOf res1 = [(1, lowerstr (spanText mem r.t r.tlen))]) ↔
        ¬ HasColon mblenL (spanText mem r.t r.tlen) := by
      rw [← hone]
      constructor
      · rintro ⟨res1, hres1, hl1⟩
        rw [hres] at hres1
        cases hres1
        exact hl1
      · intro hl
        exact ⟨res, hres, hl⟩
    rw [hex, key]
    constructor
    · intro hn q hq hqp hcol
      by_contra hge
      exact hn ⟨q, CharStart_chain _ _ _ hstart q hq (by omega), by rw [← hp]; exact hqp, hcol⟩
    · rintro hall ⟨q, hq, hqe, hcol⟩
      have := hall q (CharStart_trans _ _ _ _ hstart hq) (by rw [hp]; exact hqe) hcol
      have := CharStart_le _ _ _ hq
      omega

theorem tagparser_plain_one_lexeme_witness :
    ((1 : Int) = TAG_TOKEN →
      ¬ HasColon oneByte (spanText (bufferAt 0 [97, 98, 32, 99]) 0 3) ∧
      ∃ res, hoordu_tagdict_lexize asciiLower oneByte { split_tags := 1 }
          (spanText (bufferAt 0 [97, 98, 32, 99]) 0 3) = some res ∧
        lexemesOf res = [(1, asciiLower (spanText (bufferAt 0 [97, 98, 32, 99]) 0 3))]) ∧
    ((1 : Int) = FULLTAG_TOKEN →
      ((∃ res, hoordu_tagdict_lexize asciiLower oneByte { split_tags := 1 }
          (spanText (bufferAt 0 [97, 98, 32, 99]) 0 3) = some res ∧
        lexemesOf res = [(1, asciiLower (spanText (bufferAt 0 [97, 98, 32, 99]) 0 3))]) ↔
      ∀ q, CharStart singleByte (hoordu_tagparser_start 0 4).p q → q < (3 : Int) →
        isColon (bufferAt 0 [97, 98, 32, 99]) singleByte q → q < (0 : Int))) :=
  tagparser_plain_one_lexeme (bufferAt 0 [97, 98, 32, 99]) singleByte asciiLower oneByte
    (fun _ => le_refl 1) asciiLower_hasColon (hoordu_tagparser_start 0 4) 0 0
    { code := 1, status := { begin := 0, end_ := 4, p := 3 }, t := 0, tlen := 3 }
    (by decide) (by decide) (fun _ _ _ => rfl)

end Hoordu
